import Mathlib

/-!
# golinks: the redirect registry and its HTTP handlers

A shallow embedding of `golinks.go`.

* Go strings are Lean strings.  The program cuts and compares them only at the
  ASCII bytes `/` and space and after the ASCII prefixes `/`, `/add/`, `/del/`,
  where counting bytes and counting characters agree.
* A handler is a pure function from the receiver `settings` and the request path
  `r.URL.Path` to the settings afterwards, the calls it makes on the
  `http.ResponseWriter` in order, and the value of `m.redirects` at each call of
  `saveToDisk`.  A run-time panic (slice or index out of range) is `none`.
* The library calls `http.Redirect`, `http.Error` and `w.Header().Set` are
  recorded with their arguments, a call of `fmt.Fprintf` by the text it writes;
  the errors of `json.Marshal` and `ioutil.WriteFile` are given by the
  environment (`Disk`).
* `regexp.MustCompile(p).MatchString` is a matcher by derivatives on the syntax
  tree of the pattern `p`.
* `json.Marshal` and `json.Unmarshal` are modelled for the one type they are used
  with, `[]*redirect`; `readConfig` is modelled on the receiver `newRedirector`
  returns, as `main` calls it.
* Two handlers at a time are two goroutines that take turns on the shared
  settings, each running from one point of suspension to the next.
-/

namespace Golinks

/-! ## Library functions used by the handlers -/

/-- The pieces of `s` between the occurrences of `sep`, on character lists. -/
def splitChars (sep : Char) : List Char → List (List Char)
  | [] => [[]]
  | c :: cs =>
    if c = sep then [] :: splitChars sep cs
    else
      match splitChars sep cs with
      | [] => [[c]]
      | seg :: segs => (c :: seg) :: segs

/-- Go `strings.Split(s, sep)` for a one-byte separator `sep`. -/
def Split (s : String) (sep : Char) : List String :=
  (splitChars sep s.data).map String.mk

/-- Go `strings.Trim(s, cutset)` for a one-byte `cutset`: `trimRightByte`, then
`trimLeftByte`. -/
def Trim (s : String) (cutset : Char) : String :=
  ⟨((s.data.reverse.dropWhile (fun c => c == cutset)).reverse).dropWhile (fun c => c == cutset)⟩

/-- Go `strings.Join(elems, sep)`. -/
def Join : List String → String → String
  | [], _ => ""
  | [a], _ => a
  | a :: b :: rest, sep => a ++ sep ++ Join (b :: rest) sep

/-- Go slice expression `s[n:]` on a string: panics when `n > len(s)`.  The
handlers cut off an ASCII prefix, so the index counts characters. -/
def sliceFrom (s : String) (n : Nat) : Option String :=
  if n ≤ s.data.length then some ⟨s.data.drop n⟩ else none

/-- One item of a bracketed character class: a single character or a range `lo-hi`. -/
inductive ClassItem where
  | single (c : Char)
  | range (lo hi : Char)

/-- Whether a character belongs to a class item. -/
def ClassItem.test : ClassItem → Char → Bool
  | .single c, x => x == c
  | .range lo hi, x => decide (lo.toNat ≤ x.toNat) && decide (x.toNat ≤ hi.toNat)

/-- Regular expressions, as far as the pattern of `addLink` needs them. -/
inductive Regexp where
  | fail
  | eps
  | lit (c : Char)
  | cls (items : List ClassItem)
  | cat (a b : Regexp)
  | alt (a b : Regexp)
  | star (a : Regexp)

namespace Regexp

/-- The literal string `s`. -/
def str (s : String) : Regexp :=
  s.data.foldr (fun c r => cat (lit c) r) eps

/-- The regular expression `a+`. -/
def plus (a : Regexp) : Regexp := cat a (star a)

/-- Whether the expression matches the empty string. -/
def nullable : Regexp → Bool
  | fail => false
  | eps => true
  | lit _ => false
  | cls _ => false
  | cat a b => nullable a && nullable b
  | alt a b => nullable a || nullable b
  | star _ => true

/-- Brzozowski derivative: what must follow after reading `x`. -/
def deriv : Regexp → Char → Regexp
  | fail, _ => fail
  | eps, _ => fail
  | lit c, x => if x = c then eps else fail
  | cls items, x => if items.any (fun i => i.test x) then eps else fail
  | cat a b, x =>
    if nullable a then alt (cat (deriv a x) b) (deriv b x) else cat (deriv a x) b
  | alt a b, x => alt (deriv a x) (deriv b x)
  | star a, x => cat (deriv a x) (star a)

/-- Whether the expression matches the whole of the character list. -/
def matchChars : Regexp → List Char → Bool
  | r, [] => nullable r
  | r, c :: cs => matchChars (deriv r c) cs

/-- Go `re.MatchString(s)` for a pattern anchored with `^` and `$` (no flags):
the body of the pattern matches the whole of `s`. -/
def MatchString (re : Regexp) (s : String) : Bool :=
  matchChars re s.data

end Regexp

/-- The class `[a-z,A-Z,0-9]` of the pattern on line 121: the ranges `a-z`, `A-Z`,
`0-9` and, twice, the comma between them. -/
def shortnameClass : List ClassItem :=
  [.range 'a' 'z', .single ',', .range 'A' 'Z', .single ',', .range '0' '9']

/-- The class `[a-z, ,A-Z,0-9,=,-,_,/,:,\.]` of the pattern on line 121.  Go parses
`,-,` as the range from `,` to `,`, so the hyphen is no member. -/
def targetClass : List ClassItem :=
  [.range 'a' 'z', .single ',', .single ' ', .single ',', .range 'A' 'Z', .single ',',
   .range '0' '9', .single ',', .single '=', .range ',' ',', .single '_', .single ',',
   .single '/', .single ',', .single ':', .single ',', .single '.']

/-- The pattern of `addLink`, line 121, between its anchors:
`(http|https|ftp)/[a-z,A-Z,0-9]+/[a-z, ,A-Z,0-9,=,-,_,/,:,\.]+`. -/
def validReq : Regexp :=
  .cat (.alt (.str "http") (.alt (.str "https") (.str "ftp")))
    (.cat (.lit '/')
      (.cat (.plus (.cls shortnameClass))
        (.cat (.lit '/') (.plus (.cls targetClass)))))


/-- Go `html.EscapeString`: `&`, `'`, `<`, `>` and `"` become entities. -/
def EscapeString (s : String) : String :=
  ⟨s.data.flatMap (fun c =>
    if c = '&' then "&amp;".data
    else if c = Char.ofNat 39 then "&#39;".data
    else if c = '<' then "&lt;".data
    else if c = '>' then "&gt;".data
    else if c = Char.ofNat 34 then "&#34;".data
    else [c])⟩

/-! ### `fmt.Fprintf` with a format and no operands

`sendHtml` passes its text to `fmt.Fprintf` as the format (line 164), so a `%` in
the text starts a verb for which there is no operand. -/

/-- A flag of a verb: `#`, `0`, `+`, `-` or space. -/
def isFlag (c : Char) : Bool :=
  c == '#' || c == '0' || c == '+' || c == '-' || c == ' '

/-- Go `parsenum`: the digits at the start of the text, whether there is a number,
and the text after it.  A number above 10^6 is given up and the rest of the text
is skipped. -/
def parsenum : Nat → Bool → List Char → Bool × List Char
  | _, isnum, [] => (isnum, [])
  | num, isnum, c :: cs =>
    if 48 ≤ c.toNat ∧ c.toNat ≤ 57 then
      if num > 1000000 then (false, [])
      else parsenum (num * 10 + (c.toNat - 48)) true cs
    else (isnum, c :: cs)

/-- Go `parseArgNumber` on the text after an opening bracket: whether `[n]` is a
number in brackets, and the text after what is consumed (the closing bracket if
there is one, else only the opening one). -/
def parseArgNumber (s : List Char) : Bool × List Char :=
  if s.length < 2 then (false, s)
  else
    match s.dropWhile (fun c => c != ']') with
    | [] => (false, s)
    | _ :: rest =>
      (decide (parsenum 0 false (s.takeWhile (fun c => c != ']')) = (true, [])), rest)

/-- Go `argNumber` with no operands: an argument index `[n]` can only be out of
range.  Gives whether the argument numbers are still good, whether an index was
found, and the text after it. -/
def argNumber (good : Bool) (s : List Char) : Bool × Bool × List Char :=
  match s with
  | [] => (good, false, [])
  | c :: t =>
    if c = '[' then (false, (parseArgNumber t).1, (parseArgNumber t).2)
    else (good, false, c :: t)

/-- The width of a verb: what is written for it (`*` has no operand), whether the
argument numbers are still good, whether the last item was an index, and the text
after it. -/
def verbWidth (good afterIndex : Bool) (s : List Char) : List Char × Bool × Bool × List Char :=
  match s with
  | [] => ([], good, afterIndex, [])
  | c :: t =>
    if c = '*' then ("%!(BADWIDTH)".data, good, false, t)
    else
      ([], good && !(afterIndex && (parsenum 0 false (c :: t)).1), afterIndex,
        (parsenum 0 false (c :: t)).2)

/-- The precision of a verb, with the same results as `verbWidth`.  A dot is the
start of a precision only if text follows it (`i+1 < end`). -/
def verbPrecision (good afterIndex : Bool) (s : List Char) :
    List Char × Bool × Bool × List Char :=
  match s with
  | [] => ([], good, afterIndex, [])
  | c :: t =>
    if c = '.' ∧ t ≠ [] then
      match (argNumber (good && !afterIndex) t).2.2 with
      | [] => ([], (argNumber (good && !afterIndex) t).1, (argNumber (good && !afterIndex) t).2.1, [])
      | c2 :: u =>
        if c2 = '*' then
          ("%!(BADPREC)".data, (argNumber (good && !afterIndex) t).1, false, u)
        else
          ([], (argNumber (good && !afterIndex) t).1, (argNumber (good && !afterIndex) t).2.1,
            (parsenum 0 false (c2 :: u)).2)
    else ([], good, afterIndex, c :: t)

/-- One verb of the loop of `doPrintf` with no operands, on the text after its
`%`: what is written and the text after the verb.  `%%` writes `%`; any other verb
`c` writes `%!c(MISSING)`, or `%!c(BADINDEX)` after a bad argument index; a verb
cut off by the end of the text writes `%!(NOVERB)`. -/
def verb (s : List Char) : List Char × List Char :=
  let a := argNumber true (s.dropWhile isFlag)
  let w := verbWidth a.1 a.2.1 a.2.2
  let p := verbPrecision w.2.1 w.2.2.1 w.2.2.2
  let b := if p.2.2.1 then (p.2.1, p.2.2.1, p.2.2.2) else argNumber p.2.1 p.2.2.2
  match b.2.2 with
  | [] => (w.1 ++ p.1 ++ "%!(NOVERB)".data, [])
  | c :: rest =>
    if c = '%' then (w.1 ++ p.1 ++ ['%'], rest)
    else if b.1 = false then (w.1 ++ p.1 ++ "%!".data ++ c :: "(BADINDEX)".data, rest)
    else (w.1 ++ p.1 ++ "%!".data ++ c :: "(MISSING)".data, rest)

/-- The loop of `doPrintf` with no operands; a verb takes at least its `%`, so
`fuel` above the length of the format is enough. -/
def sprintfAux : Nat → List Char → List Char
  | 0, _ => []
  | _ + 1, [] => []
  | fuel + 1, c :: cs =>
    if c = '%' then (verb cs).1 ++ sprintfAux fuel (verb cs).2
    else c :: sprintfAux fuel cs

/-- Go `fmt.Sprintf(format)` with no operands: what `fmt.Fprintf(w, format)`
writes to `w`. -/
def Sprintf (format : String) : String :=
  ⟨sprintfAux (format.data.length + 1) format.data⟩

/-! ## Data model (lines 15-24) -/

/-- The Go struct `redirect`; `Requests` is an `int32`, on which the program does
no arithmetic. -/
structure redirect where
  Shortname : String
  Url : String
  Requests : Int
  deriving DecidableEq

/-- The Go struct `settings`; the slice of pointers is the list of the entries
pointed to. -/
structure settings where
  redirects : List redirect
  filename : String
  deriving DecidableEq

/-- A call on the `http.ResponseWriter` of a request. -/
inductive Output where
  /-- The call `w.Header().Set(key, value)`. -/
  | HeaderSet (key value : String)
  /-- The call `http.Redirect(w, r, url, code)`. -/
  | Redirect (url : String) (code : Nat)
  /-- The call `http.Error(w, msg, code)`. -/
  | Error (msg : String) (code : Nat)
  /-- The text a call of `fmt.Fprintf` writes to `w`. -/
  | Write (text : String)
  deriving DecidableEq

/-- What the environment answers during one `saveToDisk`: the errors of
`json.Marshal` and of `ioutil.WriteFile`, printed with `%s` (`none` is `nil`). -/
structure Disk where
  marshalErr : Option String
  writeErr : Option String
  deriving DecidableEq

/-- What a handler did: the settings afterwards, the calls on the response
writer in order, and the value of `m.redirects` at each call of `saveToDisk`. -/
structure Result where
  m : settings
  w : List Output
  saved : List (List redirect)
  deriving DecidableEq

/-! ## Operations -/

/-- The function `newRedirector` (lines 43-47). -/
def newRedirector (file : String) : settings :=
  { redirects := [], filename := file }

/-- The error returned by `saveToDisk` (lines 64-76), `none` for `nil`: the error
of `json.Marshal(m.redirects)` if there is one, else that of `ioutil.WriteFile`.
The bytes written are not modelled; a handler records the marshalled
`m.redirects` in `Result.saved`. -/
def settings.saveToDisk (_m : settings) (d : Disk) : Option String :=
  match d.marshalErr with
  | some err => some ("error marshalling " ++ err)
  | none =>
    match d.writeErr with
    | some err => some ("unable to open file " ++ err)
    | none => none

/-- The function `sendHtml` (lines 158-167): three calls of `fmt.Fprintf`, each
with its first string as the format and no operands. -/
def sendHtml (text : String) : List Output :=
  [.Write (Sprintf "<html>\n                                <head>\n                                <title>Redirects Setup</title>\n                                </head>\n                                <body>"),
   .Write (Sprintf text),
   .Write (Sprintf "</body>\n                                </html>")]

/-- The loop `for i, v := range m.redirects { if v.Shortname == sh { ... } }` of
the handlers, which leaves at the first match: its index and entry. -/
def firstMatch (sh : String) : List redirect → Option (Nat × redirect)
  | [] => none
  | v :: vs =>
    if v.Shortname = sh then some (0, v)
    else (firstMatch sh vs).map (fun p => (p.1 + 1, p.2))

/-- The handler `getLinks` (lines 79-85). -/
def settings.getLinks (m : settings) : Result :=
  { m := m
    w := sendHtml (m.redirects.foldl (fun s v =>
      s ++ ("Shortname: " ++ v.Shortname ++ " -> Url: " ++ v.Url ++ "  Count "
        ++ toString v.Requests ++ " <BR>")) "")
    saved := [] }

/-- The handler `redirect` (lines 88-102) on the request path `r.URL.Path`. -/
def settings.redirect (m : settings) (path : String) : Option Result :=
  match sliceFrom path 1 with
  | none => none
  | some p =>
    let req := Split p '/'
    match req[0]? with
    | none => none
    | some req0 =>
      let sh := Trim req0 ' '
      let found :=
        match firstMatch sh m.redirects with
        | some (_, v) =>
          [Output.HeaderSet "Cache-Control" "private, no-cache",
           Output.Redirect (Join (req.set 0 v.Url) "/") 302]
        | none => []
      some { m := m, w := found ++ sendHtml ("Shortname " ++ sh ++ " not found!"), saved := [] }

/-- The handler `delLink` (lines 104-116) on the request path `r.URL.Path`. -/
def settings.delLink (m : settings) (d : Disk) (path : String) : Option Result :=
  match sliceFrom path 5 with
  | none => none
  | some p =>
    let req := Trim p ' '
    match firstMatch req m.redirects with
    | some (i, _) =>
      let m1 : settings := { m with redirects := m.redirects.take i ++ m.redirects.drop (i + 1) }
      match m1.saveToDisk d with
      | some _ =>
        some { m := m1
               w := [.Error "Internal error deleting redirect." 500, .Redirect "/list" 302]
               saved := [m1.redirects] }
      | none => some { m := m1, w := [.Redirect "/list" 302], saved := [m1.redirects] }
    | none => some { m := m, w := [.Redirect "/list" 302], saved := [] }

/-- The message of `addLink` for a request the pattern rejects (line 123). -/
def usage : String :=
  EscapeString "Request should be of form /add/<protocol eg. http, https, ftp>/<shortname>/<redirect>"

/-- The handler `addLink` (lines 118-156) on the request path `r.URL.Path`. -/
def settings.addLink (m : settings) (d : Disk) (path : String) : Option Result :=
  match sliceFrom path 5 with
  | none => none
  | some p =>
    if validReq.MatchString p = false then
      some { m := m, w := sendHtml usage, saved := [] }
    else
      let req := (Split p '/').map (fun x => Trim x ' ')
      match req[1]?, req[0]?, (if 2 ≤ req.length then some (req.drop 2) else none) with
      | some shortname, some req0, some rest =>
        let url := req0 ++ "://" ++ Join rest "/"
        match firstMatch shortname m.redirects with
        | some (_, v) =>
          some { m := m, w := sendHtml ("Shortname already points to " ++ v.Url), saved := [] }
        | none =>
          let m1 : settings :=
            { m with redirects := m.redirects ++ [{ Shortname := shortname, Url := url, Requests := 0 }] }
          match m1.saveToDisk d with
          | some _ =>
            some { m := m1, w := [.Error "Internal error saving redirect." 500],
                   saved := [m1.redirects] }
          | none => some { m := m1, w := [.Redirect "/list" 302], saved := [m1.redirects] }
      | _, _, _ => none

/-! ## Sequences of requests -/

/-- A request as `main` routes it (lines 34-37), with the request path and, for
the handlers that save, the disk at the time it is handled. -/
inductive Request where
  | add (path : String) (d : Disk)
  | list
  | del (path : String) (d : Disk)
  | redirect (path : String)

/-- The handler `main` registers for the request. -/
def handle (m : settings) : Request → Option Result
  | .add path d => m.addLink d path
  | .list => some m.getLinks
  | .del path d => m.delLink d path
  | .redirect path => m.redirect path

/-- The settings after the requests are handled one after the other.  A handler
that panics does so before it assigns to `m.redirects`, and the server recovers
the panic: the settings stay as they are. -/
def run (m : settings) : List Request → settings
  | [] => m
  | q :: qs =>
    match handle m q with
    | some r => run r.m qs
    | none => run m qs

/-- The shortnames of the registry are pairwise distinct and non-empty. -/
def Unique (m : settings) : Prop :=
  (m.redirects.map (fun e => e.Shortname)).Nodup ∧ ∀ v ∈ m.redirects, v.Shortname ≠ ""

/-- An add request together with the segments of its add path: `path` split on
"/" is `p`, `s`, `ts`. -/
structure AddRequest where
  path : String
  p : String
  s : String
  ts : List String
  d : Disk

/-- The entry `addLink` builds for an add request (lines 134-135 and 145-149). -/
def AddRequest.entry (q : AddRequest) : redirect :=
  { Shortname := q.s
    Url := q.p ++ "://" ++ Join (q.ts.map (fun t => Trim t ' ')) "/"
    Requests := 0 }

/-- The line `getLinks` prints for an entry (line 82). -/
def listLine (v : redirect) : String :=
  "Shortname: " ++ v.Shortname ++ " -> Url: " ++ v.Url ++ "  Count "
    ++ toString v.Requests ++ " <BR>"

/-! ## Two requests at a time

The server runs every request in a goroutine of its own and `settings` has no
lock, so the statements of two handlers may interleave.  `addLink` reads
`m.redirects` in the lookup loop (lines 138-143) and assigns to it in the append
(line 145); a goroutine can be suspended between the two. -/

/-- The handler `addLink` up to the end of the lookup loop (lines 120-143): a
finished response, or the entry that line 145 will append. -/
def settings.addLinkCheck (m : settings) (path : String) :
    Option (Result ⊕ Golinks.redirect) :=
  match sliceFrom path 5 with
  | none => none
  | some p =>
    if validReq.MatchString p = false then
      some (.inl { m := m, w := sendHtml usage, saved := [] })
    else
      let req := (Split p '/').map (fun x => Trim x ' ')
      match req[1]?, req[0]?, (if 2 ≤ req.length then some (req.drop 2) else none) with
      | some shortname, some req0, some rest =>
        let url := req0 ++ "://" ++ Join rest "/"
        match firstMatch shortname m.redirects with
        | some (_, v) =>
          some (.inl { m := m, w := sendHtml ("Shortname already points to " ++ v.Url),
                       saved := [] })
        | none => some (.inr { Shortname := shortname, Url := url, Requests := 0 })
      | _, _, _ => none

/-- The handler `addLink` from the append on (lines 145-155). -/
def settings.addLinkStore (m : settings) (d : Disk) (e : Golinks.redirect) : Result :=
  let m1 : settings := { m with redirects := m.redirects ++ [e] }
  match m1.saveToDisk d with
  | some _ =>
    { m := m1, w := [.Error "Internal error saving redirect." 500], saved := [m1.redirects] }
  | none => { m := m1, w := [.Redirect "/list" 302], saved := [m1.redirects] }

/-- Where a goroutine that handles an add request stands: before line 120, between
the lookup loop and the append with the new entry in hand, or finished with the
output it wrote. -/
inductive Goroutine where
  | start (path : String) (d : Disk)
  | checked (e : redirect) (d : Disk)
  | done (w : List Output)
  | panicked
  deriving DecidableEq

/-- One goroutine runs up to its next point of suspension, on the shared settings. -/
def Goroutine.step (m : settings) : Goroutine → settings × Goroutine
  | .start path d =>
    match m.addLinkCheck path with
    | none => (m, .panicked)
    | some (.inl r) => (r.m, .done r.w)
    | some (.inr e) => (m, .checked e d)
  | .checked e d => ((m.addLinkStore d e).m, .done (m.addLinkStore d e).w)
  | .done w => (m, .done w)
  | .panicked => (m, .panicked)

/-- Two goroutines on the shared settings under a schedule: `false` lets the first
one run its next step, `true` the second. -/
def interleave (m : settings) (a b : Goroutine) : List Bool → settings × Goroutine × Goroutine
  | [] => (m, a, b)
  | false :: rest => interleave (a.step m).1 (a.step m).2 b rest
  | true :: rest => interleave (b.step m).1 a (b.step m).2 rest

/-! ## The package encoding/json, as far as `saveToDisk` and `readConfig` use it

`json.Marshal` of a `[]*redirect` and `json.Unmarshal` into a nil `[]*redirect`.
A JSON text is cut into tokens, the tokens are checked against the JSON grammar
(the scanner of `checkValid`), and the token list is decoded into the slice by the
rules of `Unmarshal`. -/

/-- A token of a JSON text; strings are unquoted, numbers keep their literal. -/
inductive Token where
  | lbracket
  | rbracket
  | lbrace
  | rbrace
  | colon
  | comma
  | str (s : String)
  | num (lit : String)
  | litTrue
  | litFalse
  | litNull
  deriving DecidableEq

/-- A piece of a string literal: a character, written as itself or by a short
escape, or the code unit of an escape `\uXXXX`. -/
inductive Piece where
  | chr (c : Char)
  | unit (n : Nat)

/-- The value of a hexadecimal digit. -/
def hexVal (c : Char) : Option Nat :=
  if 48 ≤ c.toNat ∧ c.toNat ≤ 57 then some (c.toNat - 48)
  else if 97 ≤ c.toNat ∧ c.toNat ≤ 102 then some (c.toNat - 87)
  else if 65 ≤ c.toNat ∧ c.toNat ≤ 70 then some (c.toNat - 55)
  else none

/-- The character a short escape `\e` stands for: `"`, `\`, `/`, `b`, `f`, `n`,
`r`, `t`. -/
def unescape (e : Char) : Option Char :=
  if e.toNat = 34 ∨ e.toNat = 92 ∨ e.toNat = 47 then some e
  else if e = 'b' then some (Char.ofNat 8)
  else if e = 'f' then some (Char.ofNat 12)
  else if e = 'n' then some (Char.ofNat 10)
  else if e = 'r' then some (Char.ofNat 13)
  else if e = 't' then some (Char.ofNat 9)
  else none

/-- The body of a string literal, after the opening quote (code 34) up to the
closing one, and the text that follows.  A backslash (code 92) starts an escape;
control characters are not allowed. -/
def scanString : List Char → Option (List Piece × List Char)
  | [] => none
  | c :: cs =>
    if c.toNat = 34 then some ([], cs)
    else if c.toNat = 92 then
      match cs with
      | [] => none
      | e :: rest =>
        if e = 'u' then
          match rest with
          | h1 :: h2 :: h3 :: h4 :: rest2 =>
            match hexVal h1, hexVal h2, hexVal h3, hexVal h4 with
            | some a, some b, some c3, some d =>
              (scanString rest2).map
                (fun r => (Piece.unit (((a * 16 + b) * 16 + c3) * 16 + d) :: r.1, r.2))
            | _, _, _, _ => none
          | _ => none
        else
          match unescape e with
          | some ch => (scanString rest).map (fun r => (Piece.chr ch :: r.1, r.2))
          | none => none
    else if c.toNat < 32 then none
    else (scanString cs).map (fun r => (Piece.chr c :: r.1, r.2))

/-- The character of a single code unit: U+FFFD for a surrogate. -/
def unitChar (n : Nat) : Char :=
  if 0xD800 ≤ n ∧ n ≤ 0xDFFF then Char.ofNat 0xFFFD else Char.ofNat n

/-- The characters of the pieces: a high surrogate followed by a low one is the
character of the pair. -/
def decodePieces : List Piece → List Char
  | [] => []
  | .chr c :: rest => c :: decodePieces rest
  | [.unit n] => [unitChar n]
  | .unit n :: .chr c :: rest => unitChar n :: c :: decodePieces rest
  | .unit hi :: .unit lo :: rest =>
    if 0xD800 ≤ hi ∧ hi ≤ 0xDBFF ∧ 0xDC00 ≤ lo ∧ lo ≤ 0xDFFF then
      Char.ofNat (0x10000 + (hi - 0xD800) * 0x400 + (lo - 0xDC00)) :: decodePieces rest
    else unitChar hi :: decodePieces (.unit lo :: rest)

/-- The characters a number literal is made of. -/
def isNumChar (c : Char) : Bool :=
  (decide (48 ≤ c.toNat) && decide (c.toNat ≤ 57)) || c == '-' || c == '+' || c == '.'
    || c == 'e' || c == 'E'

/-- The JSON number grammar: `-?(0|[1-9][0-9]*)(\.[0-9]+)?([eE][+-]?[0-9]+)?`. -/
def numberRe : Regexp :=
  .cat (.alt .eps (.lit '-'))
    (.cat (.alt (.lit '0') (.cat (.cls [.range '1' '9']) (.star (.cls [.range '0' '9']))))
      (.cat (.alt .eps (.cat (.lit '.') (.plus (.cls [.range '0' '9']))))
        (.alt .eps
          (.cat (.cls [.single 'e', .single 'E'])
            (.cat (.alt .eps (.cls [.single '+', .single '-']))
              (.plus (.cls [.range '0' '9'])))))))

/-- The text after the word `w`, if the text starts with it. -/
def stripWord (w s : List Char) : Option (List Char) :=
  if s.take w.length = w then some (s.drop w.length) else none

/-- The tokens of a JSON text; `none` for a text that has none (an invalid
character, an unfinished string, a malformed number or word).  Every step takes
at least one character, so `fuel` above the length of the text is enough.
Codes: 91 and 93 the brackets, 123 and 125 the braces, 58 the colon, 44 the
comma, 34 the quote. -/
def lexAux : Nat → List Char → Option (List Token)
  | 0, _ => none
  | _ + 1, [] => some []
  | fuel + 1, c :: cs =>
    if c = ' ' ∨ c = '\t' ∨ c = '\r' ∨ c = '\n' then lexAux fuel cs
    else if c.toNat = 91 then (lexAux fuel cs).map (fun ts => Token.lbracket :: ts)
    else if c.toNat = 93 then (lexAux fuel cs).map (fun ts => Token.rbracket :: ts)
    else if c.toNat = 123 then (lexAux fuel cs).map (fun ts => Token.lbrace :: ts)
    else if c.toNat = 125 then (lexAux fuel cs).map (fun ts => Token.rbrace :: ts)
    else if c.toNat = 58 then (lexAux fuel cs).map (fun ts => Token.colon :: ts)
    else if c.toNat = 44 then (lexAux fuel cs).map (fun ts => Token.comma :: ts)
    else if c.toNat = 34 then
      match scanString cs with
      | some (ps, rest) =>
        (lexAux fuel rest).map (fun ts => Token.str ⟨decodePieces ps⟩ :: ts)
      | none => none
    else if isNumChar c then
      if numberRe.matchChars ((c :: cs).takeWhile isNumChar) then
        (lexAux fuel ((c :: cs).dropWhile isNumChar)).map
          (fun ts => Token.num ⟨(c :: cs).takeWhile isNumChar⟩ :: ts)
      else none
    else
      match stripWord "true".data (c :: cs), stripWord "false".data (c :: cs),
        stripWord "null".data (c :: cs) with
      | some rest, _, _ => (lexAux fuel rest).map (fun ts => Token.litTrue :: ts)
      | _, some rest, _ => (lexAux fuel rest).map (fun ts => Token.litFalse :: ts)
      | _, _, some rest => (lexAux fuel rest).map (fun ts => Token.litNull :: ts)
      | _, _, _ => none

/-- The tokens of a JSON text. -/
def lex (data : String) : Option (List Token) :=
  lexAux (data.data.length + 1) data.data

/-- What the scanner expects next. -/
inductive Expect where
  /-- A value. -/
  | value
  /-- After `[`: a value or `]`. -/
  | firstValue
  /-- After the opening brace: a key or the closing brace. -/
  | firstKey
  /-- After a comma in an object: a key. -/
  | key
  /-- After a key: the colon. -/
  | colon
  /-- After a value: a comma, the end of the enclosing array or object, or the end
  of the text. -/
  | after
  deriving DecidableEq

/-- Whether the token is a value by itself. -/
def Token.isScalar : Token → Bool
  | .str _ | .num _ | .litTrue | .litFalse | .litNull => true
  | _ => false

/-- The JSON grammar on tokens, with the stack of the enclosing arrays (`false`)
and objects (`true`); like the scanner of `checkValid`, it refuses a nesting deeper
than 10000. -/
def wellFormedAux : List Bool → Expect → List Token → Bool
  | stack, st, [] => decide (st = .after) && stack.isEmpty
  | stack, .value, t :: ts =>
    if t.isScalar then wellFormedAux stack .after ts
    else if t = .lbracket then
      decide (stack.length < 10000) && wellFormedAux (false :: stack) .firstValue ts
    else if t = .lbrace then
      decide (stack.length < 10000) && wellFormedAux (true :: stack) .firstKey ts
    else false
  | stack, .firstValue, t :: ts =>
    if t.isScalar then wellFormedAux stack .after ts
    else if t = .lbracket then
      decide (stack.length < 10000) && wellFormedAux (false :: stack) .firstValue ts
    else if t = .lbrace then
      decide (stack.length < 10000) && wellFormedAux (true :: stack) .firstKey ts
    else if t = .rbracket then wellFormedAux stack.tail .after ts
    else false
  | stack, .firstKey, t :: ts =>
    match t with
    | .str _ => wellFormedAux stack .colon ts
    | .rbrace => wellFormedAux stack.tail .after ts
    | _ => false
  | stack, .key, t :: ts =>
    match t with
    | .str _ => wellFormedAux stack .colon ts
    | _ => false
  | stack, .colon, t :: ts =>
    if t = .colon then wellFormedAux stack .value ts else false
  | stack, .after, t :: ts =>
    match stack, t with
    | false :: _, .comma => wellFormedAux stack .value ts
    | false :: rest, .rbracket => wellFormedAux rest .after ts
    | true :: _, .comma => wellFormedAux stack .key ts
    | true :: rest, .rbrace => wellFormedAux rest .after ts
    | _, _ => false

/-- Whether the tokens are one JSON value. -/
def wellFormed (ts : List Token) : Bool :=
  wellFormedAux [] .value ts

/-- The pieces of a token list between its commas outside of brackets and braces. -/
def splitTop : Nat → List Token → List (List Token)
  | _, [] => [[]]
  | depth, t :: ts =>
    if t = .comma ∧ depth = 0 then [] :: splitTop 0 ts
    else
      match splitTop
        (if t = .lbracket ∨ t = .lbrace then depth + 1
         else if t = .rbracket ∨ t = .rbrace then depth - 1 else depth) ts with
      | [] => [[t]]
      | seg :: segs => (t :: seg) :: segs

/-- The members of an array or object, given the tokens between its brackets. -/
def members (inner : List Token) : List (List Token) :=
  if inner = [] then [] else splitTop 0 inner

/-- The value of a literal of decimal digits. -/
def parseDigits (ds : List Char) : Option Nat :=
  if ds ≠ [] ∧ ds.all (fun c => decide (48 ≤ c.toNat) && decide (c.toNat ≤ 57)) then
    some (ds.foldl (fun a c => 10 * a + (c.toNat - 48)) 0)
  else none

/-- A number literal as an `int32`: `strconv.ParseInt` and the overflow check;
`none` for a literal with a fraction or an exponent or out of range. -/
def parseInt32 (lit : List Char) : Option Int :=
  match lit with
  | [] => none
  | c :: rest =>
    if c = '-' then
      match parseDigits rest with
      | some n => if n ≤ 2147483648 then some (-(n : Int)) else none
      | none => none
    else
      match parseDigits (c :: rest) with
      | some n => if n ≤ 2147483647 then some (n : Int) else none
      | none => none

/-- The name of a key as the decoder compares it with the field names: ASCII
letters in upper case, and the two non-ASCII letters whose case folding meets
ASCII, U+017F and U+212A, as `S` and `K`. -/
def foldName (s : String) : String :=
  ⟨s.data.map (fun c =>
    if 97 ≤ c.toNat ∧ c.toNat ≤ 122 then Char.ofNat (c.toNat - 32)
    else if c.toNat = 0x17F then 'S'
    else if c.toNat = 0x212A then 'K'
    else c)⟩

/-- A JSON value stored into a field of type `string`: a string is stored, `null`
changes nothing, anything else is a type error (`true`) and changes nothing. -/
def storeString (old : String) (v : List Token) : String × Bool :=
  match v with
  | [.str s] => (s, false)
  | [.litNull] => (old, false)
  | _ => (old, true)

/-- A JSON value stored into a field of type `int32`. -/
def storeInt32 (old : Int) (v : List Token) : Int × Bool :=
  match v with
  | [.num lit] =>
    match parseInt32 lit.data with
    | some n => (n, false)
    | none => (old, true)
  | [.litNull] => (old, false)
  | _ => (old, true)

/-- One member `key : value` of an object decoded into the struct: the field
whose name matches the key takes the value; other keys are skipped. -/
def decodeField (e : redirect) (f : List Token) : redirect × Bool :=
  match f with
  | .str key :: .colon :: v =>
    if foldName key = "SHORTNAME" then
      ({ e with Shortname := (storeString e.Shortname v).1 }, (storeString e.Shortname v).2)
    else if foldName key = "URL" then
      ({ e with Url := (storeString e.Url v).1 }, (storeString e.Url v).2)
    else if foldName key = "REQUESTS" then
      ({ e with Requests := (storeInt32 e.Requests v).1 }, (storeInt32 e.Requests v).2)
    else (e, false)
  | _ => (e, false)

/-- An element of the array decoded into a `*redirect`: `null` is the nil pointer
(`none`), an object fills a new struct member by member, and any other value
leaves a new zero struct and is a type error. -/
def decodeElem (ts : List Token) : Option redirect × Bool :=
  match ts with
  | [.litNull] => (none, false)
  | .lbrace :: rest =>
    let r := (members rest.dropLast).foldl
      (fun (acc : redirect × Bool) f => ((decodeField acc.1 f).1, acc.2 || (decodeField acc.1 f).2))
      (({ Shortname := "", Url := "", Requests := 0 } : redirect), false)
    (some r.1, r.2)
  | _ => (some { Shortname := "", Url := "", Requests := 0 }, true)

/-- A JSON value decoded into a nil `[]*redirect`: `null` leaves it nil, an array
gives one pointer per element, any other value is a type error and leaves it nil. -/
def decodeTop (ts : List Token) : List (Option redirect) × Bool :=
  match ts with
  | [.litNull] => ([], false)
  | .lbracket :: rest =>
    (((members rest.dropLast).map decodeElem).map Prod.fst,
      ((members rest.dropLast).map decodeElem).any Prod.snd)
  | _ => ([], true)

/-- The two kinds of error `json.Unmarshal` reports here. -/
inductive JsonError where
  | syntaxError
  | typeError
  deriving DecidableEq

/-- Go `json.Unmarshal(data, &s)` for a nil `s` of type `[]*redirect`: the slice
afterwards (`none` is a nil pointer) and the error.  A text that is not valid JSON
is refused before anything is stored; a value of the wrong type is skipped, the
rest is decoded, and the error is reported at the end. -/
def Unmarshal (data : String) : List (Option redirect) × Option JsonError :=
  match lex data with
  | none => ([], some .syntaxError)
  | some ts =>
    if wellFormed ts then
      ((decodeTop ts).1, if (decodeTop ts).2 then some .typeError else none)
    else ([], some .syntaxError)

/-- A hexadecimal digit, in lower case. -/
def hexDigit (n : Nat) : Char :=
  if n < 10 then Char.ofNat (48 + n) else Char.ofNat (87 + n)

/-- One character of a string as `json.Marshal` writes it: quote (34) and
backslash (92) after a backslash, the short escapes, `\u00XX` for the other control
characters and for `<`, `>`, `&`, U+2028 and U+2029, and every other character
as itself. -/
def quoteChar (c : Char) : List Char :=
  if c.toNat = 34 ∨ c.toNat = 92 then [Char.ofNat 92, c]
  else if c.toNat = 8 then [Char.ofNat 92, 'b']
  else if c.toNat = 12 then [Char.ofNat 92, 'f']
  else if c.toNat = 10 then [Char.ofNat 92, 'n']
  else if c.toNat = 13 then [Char.ofNat 92, 'r']
  else if c.toNat = 9 then [Char.ofNat 92, 't']
  else if c.toNat < 32 ∨ c.toNat = 60 ∨ c.toNat = 62 ∨ c.toNat = 38 then
    [Char.ofNat 92, 'u', '0', '0', hexDigit (c.toNat / 16), hexDigit (c.toNat % 16)]
  else if c.toNat = 0x2028 ∨ c.toNat = 0x2029 then
    [Char.ofNat 92, 'u', '2', '0', '2', hexDigit (c.toNat % 16)]
  else [c]

/-- A string as `json.Marshal` writes it. -/
def quoteString (s : String) : List Char :=
  Char.ofNat 34 :: (s.data.flatMap quoteChar ++ [Char.ofNat 34])

/-- The decimal digits of a number. -/
def natDigits : Nat → Nat → List Char
  | 0, _ => []
  | fuel + 1, n =>
    if n < 10 then [Char.ofNat (48 + n)]
    else natDigits fuel (n / 10) ++ [Char.ofNat (48 + n % 10)]

/-- An integer as `json.Marshal` writes it (`strconv.AppendInt`, base 10). -/
def formatInt : Int → List Char
  | .ofNat k => natDigits (k + 1) k
  | .negSucc k => '-' :: natDigits (k + 2) (k + 1)

/-- A `redirect` as `json.Marshal` writes it: the fields in the order of the
struct, under their names. -/
def marshalEntry (v : redirect) : List Char :=
  "\x7b\"Shortname\":".data ++ quoteString v.Shortname ++ ",\"Url\":".data ++ quoteString v.Url
    ++ ",\"Requests\":".data ++ formatInt v.Requests ++ "\x7d".data

/-- The texts joined by commas. -/
def joinEntries : List (List Char) → List Char
  | [] => []
  | [a] => a
  | a :: b :: rest => a ++ ',' :: joinEntries (b :: rest)

/-- Go `json.Marshal(s)` for a non-nil `s` of type `[]*redirect` without nil
pointers.  (`saveToDisk` is only called after an append or after a cut of a
non-empty slice, never on the nil slice, which is written `null`.) -/
def Marshal (l : List redirect) : String :=
  ⟨'[' :: (joinEntries (l.map marshalEntry) ++ [']'])⟩

/-- The bytes `saveToDisk` hands to `ioutil.WriteFile` (lines 65 and 71). -/
def settings.fileContent (m : settings) : String :=
  Marshal m.redirects

/-- The method `readConfig` (lines 51-61) on the receiver `newRedirector` returns,
whose slice is nil: the slice `m.redirects` afterwards, `none` being a nil
pointer.  `blob` is what `ioutil.ReadFile` returns, `none` when it returns an
error; an error of `json.Unmarshal` is only logged. -/
def readConfig (blob : Option String) : List (Option redirect) :=
  match blob with
  | none => []
  | some jsonBlob => (Unmarshal jsonBlob).1

/-- The tokens of a `redirect` as `json.Marshal` writes it. -/
def entryTokens (v : redirect) : List Token :=
  [.lbrace, .str "Shortname", .colon, .str v.Shortname, .comma, .str "Url", .colon,
   .str v.Url, .comma, .str "Requests", .colon, .num ⟨formatInt v.Requests⟩, .rbrace]

/-- The token lists joined by commas. -/
def joinTokens : List (List Token) → List Token
  | [] => []
  | [a] => a
  | a :: b :: rest => a ++ Token.comma :: joinTokens (b :: rest)

/-- The text has the tokens `ts`, with any fuel above its length. -/
def Lexes (s : List Char) (ts : List Token) : Prop :=
  ∀ fuel, s.length < fuel → lexAux fuel s = some ts

/-- An entry as it is read back from what `json.Marshal` wrote for it: a counter
outside the range of `int32` (which no Go value has) would be skipped. -/
def readBack (v : redirect) : redirect :=
  { v with
    Requests :=
      if -2147483648 ≤ v.Requests ∧ v.Requests ≤ 2147483647 then v.Requests else 0 }

/-! ## The grammar of the specification -/

/-- The class `[A-Za-z0-9]` of the specification. -/
def specShortnameClass : List ClassItem :=
  [.range 'A' 'Z', .range 'a' 'z', .range '0' '9']

/-- The class `[A-Za-z0-9 =_./:-]` of the specification. -/
def specTargetClass : List ClassItem :=
  [.range 'A' 'Z', .range 'a' 'z', .range '0' '9', .single ' ', .single '=', .single '_',
   .single '.', .single '/', .single ':', .single '-']

/-- The add path grammar as the specification words it: `p/s/t` with `p` one of
`http`, `https`, `ftp`, `s` in `[A-Za-z0-9]+` and `t` in `[A-Za-z0-9 =_./:-]+`. -/
def specReq : Regexp :=
  .cat (.alt (.str "http") (.alt (.str "https") (.str "ftp")))
    (.cat (.lit '/')
      (.cat (.plus (.cls specShortnameClass))
        (.cat (.lit '/') (.plus (.cls specTargetClass)))))

/-- The path is `p/s/t` with `p` one of `http`, `https`, `ftp`, `s` a non-empty
string over the class `X` and `t` a non-empty string over the class `Y`. -/
def HasForm (X Y : List ClassItem) (path : String) : Prop :=
  ∃ p s t : String, path = p ++ "/" ++ s ++ "/" ++ t ∧
    (p = "http" ∨ p = "https" ∨ p = "ftp") ∧
    s ≠ "" ∧ (∀ c ∈ s.data, X.any (fun i => i.test c) = true) ∧
    t ≠ "" ∧ ∀ c ∈ t.data, Y.any (fun i => i.test c) = true

/-- The add path grammar of the specification, in words. -/
def SpecForm (path : String) : Prop :=
  HasForm specShortnameClass specTargetClass path

/-! ## Facts about the matcher -/

namespace Regexp

theorem matchChars_fail (s : List Char) : matchChars fail s = false := by
  induction s with
  | nil => rfl
  | cons x s ih => simpa [matchChars, deriv] using ih

theorem matchChars_eps (s : List Char) : matchChars eps s = true ↔ s = [] := by
  cases s with
  | nil => simp [matchChars, nullable]
  | cons x s => simp [matchChars, deriv, matchChars_fail]

theorem matchChars_lit (c : Char) (s : List Char) :
    matchChars (lit c) s = true ↔ s = [c] := by
  cases s with
  | nil => simp [matchChars, nullable]
  | cons x s =>
    by_cases h : x = c
    · simp [matchChars, deriv, h, matchChars_eps]
    · simp [matchChars, deriv, h, matchChars_fail]

theorem matchChars_cls (items : List ClassItem) (s : List Char) :
    matchChars (cls items) s = true ↔
      ∃ x, s = [x] ∧ items.any (fun i => i.test x) = true := by
  cases s with
  | nil => simp [matchChars, nullable]
  | cons x s =>
    by_cases h : items.any (fun i => i.test x) = true
    · simp only [matchChars, deriv, h, if_true, matchChars_eps]
      constructor
      · rintro rfl
        exact ⟨x, rfl, h⟩
      · rintro ⟨y, hy, _⟩
        simp only [List.cons.injEq] at hy
        exact hy.2
    · rw [matchChars, deriv, if_neg h, matchChars_fail]
      constructor
      · intro h'
        exact absurd h' (by simp)
      · rintro ⟨y, hy, hy'⟩
        simp only [List.cons.injEq] at hy
        rw [← hy.1] at hy'
        exact absurd hy' h

theorem matchChars_alt (a b : Regexp) (s : List Char) :
    matchChars (alt a b) s = (matchChars a s || matchChars b s) := by
  induction s generalizing a b with
  | nil => rfl
  | cons x s ih => simp only [matchChars, deriv, ih]

theorem matchChars_cat (a b : Regexp) (s : List Char) :
    matchChars (cat a b) s = true ↔
      ∃ t u, s = t ++ u ∧ matchChars a t = true ∧ matchChars b u = true := by
  induction s generalizing a with
  | nil =>
    simp only [matchChars, nullable, Bool.and_eq_true]
    constructor
    · rintro ⟨ha, hb⟩
      exact ⟨[], [], rfl, ha, hb⟩
    · rintro ⟨t, u, h, ht, hu⟩
      obtain ⟨rfl, rfl⟩ := List.append_eq_nil.mp h.symm
      exact ⟨ht, hu⟩
  | cons x s ih =>
    by_cases hn : nullable a = true
    · simp only [matchChars, deriv, hn, if_true, matchChars_alt, Bool.or_eq_true, ih]
      constructor
      · rintro (⟨t, u, rfl, ht, hu⟩ | h)
        · exact ⟨x :: t, u, rfl, ht, hu⟩
        · exact ⟨[], x :: s, rfl, hn, h⟩
      · rintro ⟨t, u, h, ht, hu⟩
        cases t with
        | nil =>
          right
          simp only [List.nil_append] at h
          subst h
          exact hu
        | cons y t =>
          left
          simp only [List.cons_append, List.cons.injEq] at h
          obtain ⟨rfl, rfl⟩ := h
          exact ⟨t, u, rfl, ht, hu⟩
    · rw [matchChars, deriv, if_neg hn, ih]
      constructor
      · rintro ⟨t, u, rfl, ht, hu⟩
        exact ⟨x :: t, u, rfl, ht, hu⟩
      · rintro ⟨t, u, h, ht, hu⟩
        cases t with
        | nil => exact absurd ht hn
        | cons y t =>
          simp only [List.cons_append, List.cons.injEq] at h
          obtain ⟨rfl, rfl⟩ := h
          exact ⟨t, u, rfl, ht, hu⟩

theorem matchChars_star_cls (items : List ClassItem) (s : List Char) :
    matchChars (star (cls items)) s = true ↔
      ∀ c ∈ s, items.any (fun i => i.test c) = true := by
  induction s with
  | nil => simp [matchChars, nullable]
  | cons x s ih =>
    simp only [matchChars, deriv, matchChars_cat, List.mem_cons, forall_eq_or_imp]
    constructor
    · rintro ⟨t, u, rfl, ht, hu⟩
      by_cases h : items.any (fun i => i.test x) = true
      · rw [if_pos h, matchChars_eps] at ht
        subst ht
        exact ⟨h, ih.mp hu⟩
      · rw [if_neg h, matchChars_fail] at ht
        exact absurd ht (by simp)
    · rintro ⟨hx, hs⟩
      refine ⟨[], s, rfl, ?_, ih.mpr hs⟩
      rw [if_pos hx]
      rfl

theorem matchChars_plus_cls (items : List ClassItem) (s : List Char) :
    matchChars (plus (cls items)) s = true ↔
      s ≠ [] ∧ ∀ c ∈ s, items.any (fun i => i.test c) = true := by
  simp only [plus, matchChars_cat, matchChars_cls, matchChars_star_cls]
  constructor
  · rintro ⟨t, u, rfl, ⟨x, rfl, hx⟩, hu⟩
    refine ⟨by simp, ?_⟩
    intro c hc
    simp only [List.singleton_append, List.mem_cons] at hc
    rcases hc with rfl | hc
    · exact hx
    · exact hu c hc
  · rintro ⟨hne, hs⟩
    cases s with
    | nil => exact absurd rfl hne
    | cons x s =>
      exact ⟨[x], s, rfl, ⟨x, rfl, hs x (List.mem_cons_self _ _)⟩,
        fun c hc => hs c (List.mem_cons_of_mem _ hc)⟩

theorem matchChars_foldr_lit (w s : List Char) :
    matchChars (w.foldr (fun c r => cat (lit c) r) eps) s = true ↔ s = w := by
  induction w generalizing s with
  | nil => simpa using matchChars_eps s
  | cons c w ih =>
    simp only [List.foldr_cons, matchChars_cat, matchChars_lit, ih]
    constructor
    · rintro ⟨t, u, rfl, rfl, rfl⟩
      rfl
    · rintro rfl
      exact ⟨[c], w, rfl, rfl, rfl⟩

theorem matchChars_str (w : String) (s : List Char) :
    matchChars (str w) s = true ↔ s = w.data :=
  matchChars_foldr_lit w.data s

end Regexp

/-! ## Facts about the string functions -/

theorem splitChars_no_sep (sep : Char) (a : List Char) (h : sep ∉ a) :
    splitChars sep a = [a] := by
  induction a with
  | nil => rfl
  | cons c cs ih =>
    have hc : c ≠ sep := fun e => h (e ▸ List.mem_cons_self _ _)
    have hcs : sep ∉ cs := fun e => h (List.mem_cons_of_mem _ e)
    simp [splitChars, hc, ih hcs]

theorem splitChars_append_sep (sep : Char) (a b : List Char) (h : sep ∉ a) :
    splitChars sep (a ++ sep :: b) = a :: splitChars sep b := by
  induction a with
  | nil => simp [splitChars]
  | cons c cs ih =>
    have hc : c ≠ sep := fun e => h (e ▸ List.mem_cons_self _ _)
    have hcs : sep ∉ cs := fun e => h (List.mem_cons_of_mem _ e)
    simp [splitChars, hc, ih hcs]

theorem splitChars_ne_nil (sep : Char) (a : List Char) : splitChars sep a ≠ [] := by
  cases a with
  | nil => simp [splitChars]
  | cons c cs =>
    by_cases hc : c = sep
    · simp [splitChars, hc]
    · cases h : splitChars sep cs <;> simp [splitChars, hc, h]

theorem Split_ne_nil (s : String) (sep : Char) : Split s sep ≠ [] := by
  simp [Split, splitChars_ne_nil]

theorem Trim_no_cutset (s : String) (c : Char) (h : c ∉ s.data) : Trim s c = s := by
  have h1 : ∀ l : List Char, c ∉ l → l.dropWhile (fun x => x == c) = l := by
    intro l hl
    cases l with
    | nil => rfl
    | cons x xs =>
      have hx : x ≠ c := fun e => hl (e ▸ List.mem_cons_self _ _)
      simp [List.dropWhile_cons, hx]
  have h2 : c ∉ s.data.reverse := by simpa using h
  show String.mk _ = s
  rw [h1 _ h2, List.reverse_reverse, h1 _ h]

theorem sliceFrom_append (pre p : String) :
    sliceFrom (pre ++ p) pre.data.length = some p := by
  simp [sliceFrom, String.data_append]

/-! ## The add pattern, spelled out -/

theorem matchChars_addPattern (X Y : List ClassItem) (l : List Char) :
    Regexp.matchChars
      (.cat (.alt (.str "http") (.alt (.str "https") (.str "ftp")))
        (.cat (.lit '/')
          (.cat (.plus (.cls X)) (.cat (.lit '/') (.plus (.cls Y)))))) l = true ↔
    ∃ p s t : List Char, l = p ++ '/' :: (s ++ '/' :: t) ∧
      (p = "http".data ∨ p = "https".data ∨ p = "ftp".data) ∧
      s ≠ [] ∧ (∀ c ∈ s, X.any (fun i => i.test c) = true) ∧
      t ≠ [] ∧ ∀ c ∈ t, Y.any (fun i => i.test c) = true := by
  simp only [Regexp.matchChars_cat, Regexp.matchChars_alt, Regexp.matchChars_str,
    Regexp.matchChars_lit, Regexp.matchChars_plus_cls, Bool.or_eq_true]
  constructor
  · rintro ⟨p, r1, rfl, hp, a, r2, rfl, rfl, sn, r3, rfl, ⟨hs1, hs2⟩, b, t, rfl, rfl, ht1, ht2⟩
    exact ⟨p, sn, t, by simp, hp, hs1, hs2, ht1, ht2⟩
  · rintro ⟨p, sn, t, rfl, hp, hs1, hs2, ht1, ht2⟩
    exact ⟨p, '/' :: (sn ++ '/' :: t), rfl, hp, ['/'], sn ++ '/' :: t, rfl, rfl,
      sn, '/' :: t, rfl, ⟨hs1, hs2⟩, ['/'], t, rfl, rfl, ht1, ht2⟩

theorem hasForm_iff_chars (X Y : List ClassItem) (path : String) :
    HasForm X Y path ↔
    ∃ p s t : List Char, path.data = p ++ '/' :: (s ++ '/' :: t) ∧
      (p = "http".data ∨ p = "https".data ∨ p = "ftp".data) ∧
      s ≠ [] ∧ (∀ c ∈ s, X.any (fun i => i.test c) = true) ∧
      t ≠ [] ∧ ∀ c ∈ t, Y.any (fun i => i.test c) = true := by
  constructor
  · rintro ⟨p, s, t, rfl, hp, hs1, hs2, ht1, ht2⟩
    refine ⟨p.data, s.data, t.data, ?_, ?_, ?_, hs2, ?_, ht2⟩
    · simp [String.data_append]
    · rcases hp with rfl | rfl | rfl <;> simp
    · exact fun e => hs1 (String.ext e)
    · exact fun e => ht1 (String.ext e)
  · rintro ⟨p, s, t, h, hp, hs1, hs2, ht1, ht2⟩
    refine ⟨⟨p⟩, ⟨s⟩, ⟨t⟩, ?_, ?_, ?_, hs2, ?_, ht2⟩
    · apply String.ext
      simp [String.data_append, h]
    · rcases hp with rfl | rfl | rfl
      · exact Or.inl rfl
      · exact Or.inr (Or.inl rfl)
      · exact Or.inr (Or.inr rfl)
    · exact fun e => hs1 (congrArg String.data e)
    · exact fun e => ht1 (congrArg String.data e)

/-- The pattern of `addLink` accepts exactly the paths `p/s/t` over its two classes. -/
theorem validReq_iff (path : String) :
    validReq.MatchString path = true ↔ HasForm shortnameClass targetClass path :=
  (matchChars_addPattern shortnameClass targetClass path.data).trans
    (hasForm_iff_chars shortnameClass targetClass path).symm

/-- The executable grammar of the specification agrees with its wording. -/
theorem specReq_iff (path : String) :
    specReq.MatchString path = true ↔ SpecForm path :=
  (matchChars_addPattern specShortnameClass specTargetClass path.data).trans
    (hasForm_iff_chars specShortnameClass specTargetClass path).symm

theorem shortnameClass_not_sep (c : Char)
    (h : shortnameClass.any (fun i => i.test c) = true) : c ≠ '/' ∧ c ≠ ' ' := by
  constructor <;> rintro rfl <;> revert h <;> decide

/-- An accepted path splits into the protocol, the shortname and at least one
further segment, and trimming changes neither protocol nor shortname. -/
theorem accepted_split (path : String) (h : validReq.MatchString path = true) :
    ∃ p s t : String, path = p ++ "/" ++ s ++ "/" ++ t ∧
      (p = "http" ∨ p = "https" ∨ p = "ftp") ∧ s ≠ "" ∧ t ≠ "" ∧
      (∀ c ∈ s.data, shortnameClass.any (fun i => i.test c) = true) ∧
      (∀ c ∈ t.data, targetClass.any (fun i => i.test c) = true) ∧
      Split path '/' = p :: s :: Split t '/' ∧ Trim p ' ' = p ∧ Trim s ' ' = s := by
  obtain ⟨p, s, t, rfl, hp, hs1, hs2, ht1, ht2⟩ := (validReq_iff path).mp h
  have hps : '/' ∉ p.data ∧ ' ' ∉ p.data := by
    rcases hp with rfl | rfl | rfl <;> decide
  have hss : '/' ∉ s.data := fun e => (shortnameClass_not_sep _ (hs2 _ e)).1 rfl
  have hsp : ' ' ∉ s.data := fun e => (shortnameClass_not_sep _ (hs2 _ e)).2 rfl
  refine ⟨p, s, t, rfl, hp, hs1, ht1, hs2, ht2, ?_, Trim_no_cutset _ _ hps.2,
    Trim_no_cutset _ _ hsp⟩
  have hd : (p ++ "/" ++ s ++ "/" ++ t).data = p.data ++ '/' :: (s.data ++ '/' :: t.data) := by
    simp [String.data_append]
  simp only [Split, hd, splitChars_append_sep _ _ _ hps.1, splitChars_append_sep _ _ _ hss,
    List.map_cons]

/-! ## Facts about the lookup loop -/

theorem firstMatch_eq_none (sh : String) (l : List redirect) :
    firstMatch sh l = none ↔ ∀ v ∈ l, v.Shortname ≠ sh := by
  induction l with
  | nil => simp [firstMatch]
  | cons x xs ih =>
    by_cases hx : x.Shortname = sh
    · simp [firstMatch, hx]
    · simp [firstMatch, hx, ih]

theorem firstMatch_find (sh : String) (l : List redirect) :
    (firstMatch sh l).map Prod.snd = l.find? (fun e => decide (e.Shortname = sh)) := by
  induction l with
  | nil => rfl
  | cons x xs ih =>
    by_cases hx : x.Shortname = sh
    · simp [firstMatch, hx]
    · simp only [firstMatch, hx, if_false, Option.map_map, List.find?_cons, decide_False]
      rw [← ih]
      rfl

theorem firstMatch_some (sh : String) (l : List redirect) (i : Nat) (v : redirect)
    (h : firstMatch sh l = some (i, v)) :
    l.find? (fun e => decide (e.Shortname = sh)) = some v ∧ v ∈ l ∧ v.Shortname = sh := by
  have hf : l.find? (fun e => decide (e.Shortname = sh)) = some v := by
    rw [← firstMatch_find, h]
    rfl
  refine ⟨hf, List.mem_of_find?_eq_some hf, ?_⟩
  simpa using List.find?_some hf

theorem firstMatch_of_find (sh : String) (l : List redirect) (v : redirect)
    (h : l.find? (fun e => decide (e.Shortname = sh)) = some v) :
    ∃ i, firstMatch sh l = some (i, v) := by
  rw [← firstMatch_find] at h
  cases hm : firstMatch sh l with
  | none => simp [hm] at h
  | some q =>
    obtain ⟨i, w⟩ := q
    rw [hm] at h
    simp only [Option.map_some', Option.some.injEq] at h
    exact ⟨i, by rw [h]⟩

theorem firstMatch_of_mem (sh : String) (l : List redirect)
    (h : ∃ v ∈ l, v.Shortname = sh) : ∃ i v, firstMatch sh l = some (i, v) := by
  cases hm : firstMatch sh l with
  | none =>
    obtain ⟨v, hv, hvs⟩ := h
    exact absurd hvs ((firstMatch_eq_none sh l).mp hm v hv)
  | some q => exact ⟨q.1, q.2, rfl⟩

/-- Cutting out the first match of a list with pairwise distinct shortnames leaves
the entries with another shortname, in their order. -/
theorem firstMatch_cut (sh : String) (l : List redirect) (i : Nat) (v : redirect)
    (h : firstMatch sh l = some (i, v)) (hnd : (l.map (fun e => e.Shortname)).Nodup) :
    l.take i ++ l.drop (i + 1) = l.filter (fun e => decide (e.Shortname ≠ sh)) := by
  induction l generalizing i with
  | nil => simp [firstMatch] at h
  | cons x xs ih =>
    simp only [List.map_cons, List.nodup_cons, List.mem_map, not_exists, not_and] at hnd
    by_cases hx : x.Shortname = sh
    · simp only [firstMatch, hx, if_true, Option.some.injEq, Prod.mk.injEq] at h
      obtain ⟨rfl, rfl⟩ := h
      have hall : ∀ e ∈ xs, e.Shortname ≠ sh := fun e he hes => hnd.1 e he (hes.trans hx.symm)
      have hfil : xs.filter (fun e => decide (e.Shortname ≠ sh)) = xs :=
        List.filter_eq_self.mpr (fun e he => by simpa using hall e he)
      rw [List.filter_cons_of_neg (by simp [hx]), hfil]
      rfl
    · simp only [firstMatch, hx, if_false] at h
      cases hm : firstMatch sh xs with
      | none => simp [hm] at h
      | some q =>
        obtain ⟨j, w⟩ := q
        rw [hm] at h
        simp only [Option.map_some', Option.some.injEq, Prod.mk.injEq] at h
        obtain ⟨rfl, rfl⟩ := h
        rw [List.filter_cons_of_pos (by simp [hx]), ← ih j hm hnd.2]
        rfl

/-! ## The handlers, evaluated -/

theorem redirect_eq (m : settings) (rest seg0 : String) (segs : List String)
    (hsplit : Split rest '/' = seg0 :: segs) :
    m.redirect ("/" ++ rest) =
      some { m := m
             w := (match firstMatch (Trim seg0 ' ') m.redirects with
                   | some (_, v) =>
                     [Output.HeaderSet "Cache-Control" "private, no-cache",
                      Output.Redirect (Join (v.Url :: segs) "/") 302]
                   | none => []) ++ sendHtml ("Shortname " ++ Trim seg0 ' ' ++ " not found!")
             saved := [] } := by
  have hs : sliceFrom ("/" ++ rest) 1 = some rest := sliceFrom_append "/" rest
  simp only [settings.redirect, hs, hsplit, List.getElem?_cons_zero, List.set_cons_zero]

theorem delLink_eq (m : settings) (d : Disk) (rest : String) :
    m.delLink d ("/del/" ++ rest) =
      match firstMatch (Trim rest ' ') m.redirects with
      | some (i, _) =>
        some { m := { m with redirects := m.redirects.take i ++ m.redirects.drop (i + 1) }
               w := (match settings.saveToDisk m d with
                     | some _ => [Output.Error "Internal error deleting redirect." 500]
                     | none => []) ++ [Output.Redirect "/list" 302]
               saved := [m.redirects.take i ++ m.redirects.drop (i + 1)] }
      | none => some { m := m, w := [.Redirect "/list" 302], saved := [] } := by
  have hs : sliceFrom ("/del/" ++ rest) 5 = some rest := sliceFrom_append "/del/" rest
  simp only [settings.delLink, hs]
  cases firstMatch (Trim rest ' ') m.redirects with
  | none => rfl
  | some q =>
    obtain ⟨i, v⟩ := q
    simp only [settings.saveToDisk]
    cases d.marshalErr <;> cases d.writeErr <;> rfl

theorem addLink_rejected (m : settings) (d : Disk) (path : String)
    (h : validReq.MatchString path = false) :
    m.addLink d ("/add/" ++ path) = some { m := m, w := sendHtml usage, saved := [] } := by
  have hs : sliceFrom ("/add/" ++ path) 5 = some path := sliceFrom_append "/add/" path
  simp only [settings.addLink, hs, h, if_true]

theorem addLink_accepted (m : settings) (d : Disk) (path p s : String) (ts : List String)
    (h : validReq.MatchString path = true) (hseg : Split path '/' = p :: s :: ts) :
    m.addLink d ("/add/" ++ path) =
      match firstMatch s m.redirects with
      | some (_, v) =>
        some { m := m, w := sendHtml ("Shortname already points to " ++ v.Url), saved := [] }
      | none =>
        some { m := { m with redirects := m.redirects ++
                        [{ Shortname := s
                           Url := p ++ "://" ++ Join (ts.map (fun x => Trim x ' ')) "/"
                           Requests := 0 }] }
               w := (match settings.saveToDisk m d with
                     | some _ => [Output.Error "Internal error saving redirect." 500]
                     | none => [Output.Redirect "/list" 302])
               saved := [m.redirects ++
                        [{ Shortname := s
                           Url := p ++ "://" ++ Join (ts.map (fun x => Trim x ' ')) "/"
                           Requests := 0 }]] } := by
  have hs : sliceFrom ("/add/" ++ path) 5 = some path := sliceFrom_append "/add/" path
  obtain ⟨p1, s1, t1, -, -, -, -, -, -, hsplit, hp, hsn⟩ := accepted_split path h
  rw [hseg] at hsplit
  simp only [List.cons.injEq] at hsplit
  obtain ⟨rfl, rfl, -⟩ := hsplit
  simp only [settings.addLink, hs, h, hseg, List.map_cons, hp, hsn]
  simp only [Bool.true_eq_false, if_false, List.getElem?_cons_succ, List.getElem?_cons_zero,
    List.length_cons, List.drop_succ_cons, List.drop_zero]
  have h2 : 2 ≤ (List.map (fun x => Trim x ' ') ts).length + 1 + 1 := by omega
  simp only [h2, if_true]
  cases firstMatch s m.redirects with
  | some q => rfl
  | none =>
    simp only [settings.saveToDisk]
    cases d.marshalErr <;> cases d.writeErr <;> rfl


theorem redirect_of_slice (m : settings) (path p : String) (h : sliceFrom path 1 = some p) :
    m.redirect path = m.redirect ("/" ++ p) := by
  have hs : sliceFrom ("/" ++ p) 1 = some p := sliceFrom_append "/" p
  simp only [settings.redirect, h, hs]

theorem delLink_of_slice (m : settings) (d : Disk) (path p : String)
    (h : sliceFrom path 5 = some p) : m.delLink d path = m.delLink d ("/del/" ++ p) := by
  have hs : sliceFrom ("/del/" ++ p) 5 = some p := sliceFrom_append "/del/" p
  simp only [settings.delLink, h, hs]

theorem addLink_of_slice (m : settings) (d : Disk) (path p : String)
    (h : sliceFrom path 5 = some p) : m.addLink d path = m.addLink d ("/add/" ++ p) := by
  have hs : sliceFrom ("/add/" ++ p) 5 = some p := sliceFrom_append "/add/" p
  simp only [settings.addLink, h, hs]

theorem Trim_ne_empty (t : String) (c : Char) (h : ∃ x ∈ t.data, x ≠ c) : Trim t c ≠ "" := by
  intro he
  have hd : ((t.data.reverse.dropWhile (fun x => x == c)).reverse).dropWhile (fun x => x == c)
      = [] := congrArg String.data he
  rw [List.dropWhile_eq_nil_iff] at hd
  have hnil : t.data.reverse.dropWhile (fun x => x == c) = [] := by
    cases hl : t.data.reverse.dropWhile (fun x => x == c) with
    | nil => rfl
    | cons y ys =>
      have hy : ¬ ((fun x => x == c) y = true) := by
        have := List.head_dropWhile_not (fun x => x == c) t.data.reverse (by rw [hl]; simp)
        simpa [hl] using this
      exact absurd (hd y (by rw [hl]; simp)) hy
  rw [List.dropWhile_eq_nil_iff] at hnil
  obtain ⟨x, hx, hxc⟩ := h
  have := hnil x (by simpa using hx)
  exact hxc (by simpa using this)

theorem Join_ne_empty (l : List String) (sep : String)
    (h : 2 ≤ l.length ∨ ∃ a, l = [a] ∧ a ≠ "") (hsep : sep ≠ "") : Join l sep ≠ "" := by
  match l, h with
  | [a], Or.inr ⟨b, hb, hne⟩ =>
    simp only [List.cons.injEq, and_true] at hb
    subst hb
    simpa [Join] using hne
  | a :: b :: rest, _ =>
    intro he
    have hd := congrArg String.data he
    simp only [Join, String.data_append] at hd
    have : sep.data = [] := by
      have h2 := congrArg List.length hd
      simp only [List.length_append, List.length_nil] at h2
      have h3 : sep.data.length = 0 := by omega
      exact List.length_eq_zero.mp h3
    exact hsep (String.ext this)
  | [a], Or.inl h2 => simp at h2
  | [], Or.inl h2 => simp at h2
  | [], Or.inr ⟨b, hb, _⟩ => simp at hb

/-! ## What `sendHtml` writes -/

theorem sprintfAux_no_percent (fuel : Nat) (l : List Char) (hf : l.length < fuel)
    (h : '%' ∉ l) : sprintfAux fuel l = l := by
  induction l generalizing fuel with
  | nil =>
    cases fuel with
    | zero => simp at hf
    | succ f => rfl
  | cons c cs ih =>
    cases fuel with
    | zero => simp at hf
    | succ f =>
      have hc : c ≠ '%' := fun e => h (e ▸ List.mem_cons_self _ _)
      have hcs : '%' ∉ cs := fun e => h (List.mem_cons_of_mem _ e)
      simp only [sprintfAux, hc, if_false, ih f (by simpa using hf) hcs]

/-- A format without `%` is written as it is. -/
theorem Sprintf_no_percent (s : String) (h : '%' ∉ s.data) : Sprintf s = s := by
  show String.mk (sprintfAux (s.data.length + 1) s.data) = s
  rw [sprintfAux_no_percent _ _ (Nat.lt_succ_self _) h]

/-- The three texts `sendHtml` writes: the head and the foot of the page hold no
`%`, the text in between is written as a format. -/
theorem sendHtml_eq (text : String) :
    sendHtml text =
      [.Write "<html>\n                                <head>\n                                <title>Redirects Setup</title>\n                                </head>\n                                <body>",
       .Write (Sprintf text),
       .Write "</body>\n                                </html>"] := by
  have h1 := Sprintf_no_percent "<html>\n                                <head>\n                                <title>Redirects Setup</title>\n                                </head>\n                                <body>" (by decide)
  have h2 := Sprintf_no_percent "</body>\n                                </html>" (by decide)
  unfold sendHtml
  rw [h1, h2]

theorem splitChars_mem (sep : Char) (l : List Char) :
    ∀ seg ∈ splitChars sep l, ∀ c ∈ seg, c ∈ l := by
  induction l with
  | nil =>
    intro seg hseg c hc
    simp only [splitChars, List.mem_singleton] at hseg
    subst hseg
    exact hc
  | cons x xs ih =>
    intro seg hseg c hc
    unfold splitChars at hseg
    split_ifs at hseg with hx
    · simp only [List.mem_cons] at hseg
      rcases hseg with rfl | hseg
      · simp at hc
      · exact List.mem_cons_of_mem _ (ih seg hseg c hc)
    · cases hs : splitChars sep xs with
      | nil =>
        rw [hs] at hseg
        simp only [List.mem_singleton] at hseg
        subst hseg
        simp only [List.mem_singleton] at hc
        subst hc
        exact List.mem_cons_self _ _
      | cons s0 ss =>
        rw [hs] at hseg ih
        simp only [List.mem_cons] at hseg
        rcases hseg with rfl | hseg
        · simp only [List.mem_cons] at hc
          rcases hc with rfl | hc
          · exact List.mem_cons_self _ _
          · exact List.mem_cons_of_mem _ (ih s0 (List.mem_cons_self _ _) c hc)
        · exact List.mem_cons_of_mem _ (ih seg (List.mem_cons_of_mem _ hseg) c hc)

theorem Split_mem (s : String) (sep : Char) :
    ∀ seg ∈ Split s sep, ∀ c ∈ seg.data, c ∈ s.data := by
  intro seg hseg c hc
  simp only [Split, List.mem_map] at hseg
  obtain ⟨l, hl, rfl⟩ := hseg
  exact splitChars_mem sep s.data l hl c hc

theorem Trim_mem (s : String) (cut c : Char) (h : c ∈ (Trim s cut).data) : c ∈ s.data := by
  have h1 : c ∈ ((s.data.reverse.dropWhile (fun x => x == cut)).reverse).dropWhile
      (fun x => x == cut) := h
  have h2 := (List.dropWhile_sublist _).subset h1
  rw [List.mem_reverse] at h2
  have h3 := (List.dropWhile_sublist _).subset h2
  simpa using h3

theorem Join_mem (l : List String) (sep : String) (c : Char) (h : c ∈ (Join l sep).data) :
    c ∈ sep.data ∨ ∃ a ∈ l, c ∈ a.data := by
  match l with
  | [] => simp [Join] at h
  | [a] => exact Or.inr ⟨a, by simp, by simpa [Join] using h⟩
  | a :: b :: rest =>
    simp only [Join, String.data_append, List.mem_append] at h
    rcases h with (h | h) | h
    · exact Or.inr ⟨a, by simp, h⟩
    · exact Or.inl h
    · rcases Join_mem (b :: rest) sep c h with h | ⟨x, hx, hc⟩
      · exact Or.inl h
      · exact Or.inr ⟨x, List.mem_cons_of_mem _ hx, hc⟩

theorem join_mem (l : List String) (c : Char) (h : c ∈ (String.join l).data) :
    ∃ a ∈ l, c ∈ a.data := by
  have key : ∀ (l : List String) (acc : String),
      c ∈ (l.foldl (fun r s => r ++ s) acc).data → c ∈ acc.data ∨ ∃ a ∈ l, c ∈ a.data := by
    intro l
    induction l with
    | nil => exact fun acc h => Or.inl h
    | cons x xs ih =>
      intro acc h
      rcases ih (acc ++ x) h with h | ⟨a, ha, hc⟩
      · rw [String.data_append, List.mem_append] at h
        rcases h with h | h
        · exact Or.inl h
        · exact Or.inr ⟨x, List.mem_cons_self _ _, h⟩
      · exact Or.inr ⟨a, List.mem_cons_of_mem _ ha, hc⟩
  rcases key l "" h with h | h
  · simp at h
  · exact h

theorem class_not_percent (c : Char) :
    (shortnameClass.any (fun i => i.test c) = true → c ≠ '%') ∧
    (targetClass.any (fun i => i.test c) = true → c ≠ '%') := by
  constructor <;> intro h <;> rintro rfl <;> revert h <;> decide

/-- The shortname and the Url stored for an accepted add path hold no `%`. -/
theorem accepted_no_percent (path p s : String) (ts : List String)
    (hacc : validReq.MatchString path = true) (hseg : Split path '/' = p :: s :: ts) :
    '%' ∉ s.data ∧
    '%' ∉ (p ++ "://" ++ Join (ts.map (fun t => Trim t ' ')) "/").data := by
  obtain ⟨p1, s1, t1, -, hp, -, -, hs, ht, hsplit, -, -⟩ := accepted_split path hacc
  rw [hseg] at hsplit
  simp only [List.cons.injEq] at hsplit
  obtain ⟨rfl, rfl, rfl⟩ := hsplit
  constructor
  · exact fun e => (class_not_percent _).1 (hs _ e) rfl
  · intro e
    simp only [String.data_append, List.mem_append] at e
    rcases e with (e | e) | e
    · rcases hp with rfl | rfl | rfl <;> revert e <;> decide
    · revert e
      decide
    · rcases Join_mem _ _ _ e with e | ⟨a, ha, hc⟩
      · revert e
        decide
      · simp only [List.mem_map] at ha
        obtain ⟨x, hx, rfl⟩ := ha
        exact (class_not_percent _).2 (ht _ (Split_mem t1 '/' x hx _ (Trim_mem x ' ' _ hc))) rfl

/-! ## Sequences of requests, evaluated -/

theorem getLinks_eq (m : settings) :
    m.getLinks = { m := m, w := sendHtml (String.join (m.redirects.map listLine)), saved := [] } := by
  simp only [settings.getLinks, String.join, List.foldl_map, listLine]

theorem addLink_unique (m : settings) (d : Disk) (path : String) (r : Result)
    (hinv : Unique m) (h : m.addLink d path = some r) : Unique r.m := by
  cases hs : sliceFrom path 5 with
  | none => simp [settings.addLink, hs] at h
  | some p =>
    rw [addLink_of_slice m d path p hs] at h
    cases hacc : validReq.MatchString p with
    | false =>
      rw [addLink_rejected m d p hacc] at h
      cases h
      exact hinv
    | true =>
      obtain ⟨p1, s1, t1, -, -, hne, -, -, -, hsplit, -, -⟩ := accepted_split p hacc
      rw [addLink_accepted m d p p1 s1 _ hacc hsplit] at h
      cases hf : firstMatch s1 m.redirects with
      | some q =>
        rw [hf] at h
        cases h
        exact hinv
      | none =>
        rw [hf] at h
        cases h
        have habs := (firstMatch_eq_none s1 m.redirects).mp hf
        constructor
        · simp only [List.map_append, List.map_cons, List.map_nil]
          refine List.Nodup.append hinv.1 (List.nodup_singleton _) ?_
          simp only [List.disjoint_singleton, List.mem_map, not_exists, not_and]
          exact fun v hv => habs v hv
        · intro v hv
          simp only [List.mem_append, List.mem_singleton] at hv
          rcases hv with hv | rfl
          · exact hinv.2 v hv
          · exact hne

theorem delLink_unique (m : settings) (d : Disk) (path : String) (r : Result)
    (hinv : Unique m) (h : m.delLink d path = some r) : Unique r.m := by
  cases hs : sliceFrom path 5 with
  | none => simp [settings.delLink, hs] at h
  | some p =>
    rw [delLink_of_slice m d path p hs, delLink_eq] at h
    cases hf : firstMatch (Trim p ' ') m.redirects with
    | none =>
      rw [hf] at h
      cases h
      exact hinv
    | some q =>
      obtain ⟨i, v⟩ := q
      rw [hf] at h
      cases h
      have hsub : (m.redirects.take i ++ m.redirects.drop (i + 1)).Sublist m.redirects := by
        rw [← List.eraseIdx_eq_take_drop_succ]
        exact List.eraseIdx_sublist _ _
      exact ⟨List.Nodup.sublist (hsub.map _) hinv.1, fun v hv => hinv.2 v (hsub.subset hv)⟩

theorem redirect_unchanged (m : settings) (path : String) (r : Result)
    (h : m.redirect path = some r) : r.m = m := by
  cases hs : sliceFrom path 1 with
  | none => simp [settings.redirect, hs] at h
  | some p =>
    rw [redirect_of_slice m path p hs] at h
    cases hsp : Split p '/' with
    | nil => exact absurd hsp (Split_ne_nil p '/')
    | cons seg0 segs =>
      rw [redirect_eq m p seg0 segs hsp] at h
      cases h
      rfl

theorem handle_unique (m : settings) (q : Request) (r : Result)
    (hinv : Unique m) (h : handle m q = some r) : Unique r.m := by
  cases q with
  | add path d => exact addLink_unique m d path r hinv h
  | list =>
    simp only [handle, Option.some.injEq] at h
    subst h
    exact hinv
  | del path d => exact delLink_unique m d path r hinv h
  | redirect path =>
    rw [redirect_unchanged m path r h]
    exact hinv

theorem run_unique (m : settings) (qs : List Request) (hinv : Unique m) :
    Unique (run m qs) := by
  induction qs generalizing m with
  | nil => exact hinv
  | cons q qs ih =>
    cases h : handle m q with
    | none =>
      simp only [run, h]
      exact ih m hinv
    | some r =>
      simp only [run, h]
      exact ih r.m (handle_unique m q r hinv h)

theorem run_adds (m : settings) (reqs : List AddRequest)
    (hacc : ∀ q ∈ reqs,
      validReq.MatchString q.path = true ∧ Split q.path '/' = q.p :: q.s :: q.ts)
    (hnd : (reqs.map (fun q => q.s)).Nodup)
    (hnew : ∀ q ∈ reqs, ∀ v ∈ m.redirects, v.Shortname ≠ q.s) :
    run m (reqs.map (fun q => Request.add ("/add/" ++ q.path) q.d)) =
      { m with redirects := m.redirects ++ reqs.map AddRequest.entry } := by
  induction reqs generalizing m with
  | nil => simp [run]
  | cons q qs ih =>
    obtain ⟨hq1, hq2⟩ := hacc q (List.mem_cons_self _ _)
    have h := addLink_accepted m q.d q.path q.p q.s q.ts hq1 hq2
    rw [(firstMatch_eq_none q.s m.redirects).mpr (hnew q (List.mem_cons_self _ _))] at h
    simp only [List.map_cons, List.nodup_cons, List.mem_map, not_exists, not_and] at hnd
    simp only [List.map_cons, run, handle, h]
    rw [ih _ (fun x hx => hacc x (List.mem_cons_of_mem _ hx)) hnd.2]
    · simp [AddRequest.entry]
    · intro x hx v hv
      simp only [List.mem_append, List.mem_singleton] at hv
      rcases hv with hv | rfl
      · exact hnew x (List.mem_cons_of_mem _ hx) v hv
      · exact fun e => hnd.1 x hx e.symm

/-! ## The two halves of `addLink` -/

/-- The handler is its first half followed by its second half. -/
theorem addLink_check_store (m : settings) (d : Disk) (path : String) :
    m.addLink d path =
      match m.addLinkCheck path with
      | none => none
      | some (.inl r) => some r
      | some (.inr e) => some (m.addLinkStore d e) := by
  simp only [settings.addLink, settings.addLinkCheck, settings.addLinkStore]
  cases sliceFrom path 5 with
  | none => rfl
  | some p =>
    simp only
    split
    · rfl
    · split
      · split
        · rfl
        · simp only
          split <;> rfl
      · rfl

theorem addLinkCheck_accepted (m : settings) (path p s : String) (ts : List String)
    (h : validReq.MatchString path = true) (hseg : Split path '/' = p :: s :: ts) :
    m.addLinkCheck ("/add/" ++ path) =
      match firstMatch s m.redirects with
      | some (_, v) =>
        some (.inl { m := m, w := sendHtml ("Shortname already points to " ++ v.Url),
                     saved := [] })
      | none =>
        some (.inr { Shortname := s
                     Url := p ++ "://" ++ Join (ts.map (fun x => Trim x ' ')) "/"
                     Requests := 0 }) := by
  have hs : sliceFrom ("/add/" ++ path) 5 = some path := sliceFrom_append "/add/" path
  obtain ⟨p1, s1, t1, -, -, -, -, -, -, hsplit, hp, hsn⟩ := accepted_split path h
  rw [hseg] at hsplit
  simp only [List.cons.injEq] at hsplit
  obtain ⟨rfl, rfl, -⟩ := hsplit
  simp only [settings.addLinkCheck, hs, h, hseg, List.map_cons, hp, hsn]
  simp only [Bool.true_eq_false, if_false, List.getElem?_cons_succ, List.getElem?_cons_zero,
    List.length_cons, List.drop_succ_cons, List.drop_zero]
  have h2 : 2 ≤ (List.map (fun x => Trim x ' ') ts).length + 1 + 1 := by omega
  simp only [h2, if_true]

theorem firstMatch_append_new (sh : String) (l : List redirect) (e : redirect)
    (habs : ∀ v ∈ l, v.Shortname ≠ sh) (he : e.Shortname = sh) :
    firstMatch sh (l ++ [e]) = some (l.length, e) := by
  induction l with
  | nil => simp [firstMatch, he]
  | cons x xs ih =>
    have hx : x.Shortname ≠ sh := habs x (List.mem_cons_self _ _)
    simp [firstMatch, hx, ih (fun v hv => habs v (List.mem_cons_of_mem _ hv))]

theorem step_checked (m : settings) (e : redirect) (d : Disk) :
    (Goroutine.checked e d).step m =
      ({ m with redirects := m.redirects ++ [e] }, .done (m.addLinkStore d e).w) := by
  simp only [Goroutine.step, settings.addLinkStore]
  split <;> rfl

theorem step_done (m : settings) (w : List Output) :
    (Goroutine.done w).step m = (m, .done w) := rfl

/-- Two add requests for the same new shortname, the first handled to its end
before the second starts: only the first entry is stored and the second request
gets the duplicate page. -/
theorem adds_in_sequence (m : settings) (da db : Disk) (pa pb p1 p2 s : String)
    (ts1 ts2 : List String)
    (hacca : validReq.MatchString pa = true) (hsega : Split pa '/' = p1 :: s :: ts1)
    (haccb : validReq.MatchString pb = true) (hsegb : Split pb '/' = p2 :: s :: ts2)
    (hnew : ∀ v ∈ m.redirects, v.Shortname ≠ s) :
    (Goroutine.start ("/add/" ++ pa) da).step m =
      (m, .checked ⟨s, p1 ++ "://" ++ Join (ts1.map (fun x => Trim x ' ')) "/", 0⟩ da) ∧
    (Goroutine.start ("/add/" ++ pb) db).step
        { m with redirects := m.redirects ++
            [⟨s, p1 ++ "://" ++ Join (ts1.map (fun x => Trim x ' ')) "/", 0⟩] } =
      ({ m with redirects := m.redirects ++
            [⟨s, p1 ++ "://" ++ Join (ts1.map (fun x => Trim x ' ')) "/", 0⟩] },
        .done (sendHtml ("Shortname already points to " ++
          (p1 ++ "://" ++ Join (ts1.map (fun x => Trim x ' ')) "/")))) := by
  constructor
  · simp only [Goroutine.step, addLinkCheck_accepted m pa p1 s ts1 hacca hsega,
      (firstMatch_eq_none s m.redirects).mpr hnew]
  · have hf := firstMatch_append_new s m.redirects
      ⟨s, p1 ++ "://" ++ Join (ts1.map (fun x => Trim x ' ')) "/", 0⟩ hnew rfl
    simp only [Goroutine.step, addLinkCheck_accepted _ pb p2 s ts2 haccb hsegb, hf]

/-! ## Strings written by `json.Marshal` and read by `json.Unmarshal` -/

theorem toNat_ofNat_small (n : Nat) (h : n < 0xD800) : (Char.ofNat n).toNat = n := by
  unfold Char.ofNat
  rw [dif_pos (Or.inl h)]
  simp [Char.ofNatAux, Char.toNat, UInt32.ofNat', UInt32.toNat]

theorem char_eq_of_toNat (c : Char) (n : Nat) (h : c.toNat = n) : c = Char.ofNat n := by
  rw [← h, Char.ofNat_toNat]

theorem hexVal_hexDigit (n : Nat) (h : n < 16) : hexVal (hexDigit n) = some n := by
  interval_cases n <;> decide

theorem scanString_raw (c : Char) (cs : List Char)
    (h1 : c.toNat ≠ 34) (h2 : c.toNat ≠ 92) (h3 : ¬ c.toNat < 32) :
    scanString (c :: cs) = (scanString cs).map (fun r => (Piece.chr c :: r.1, r.2)) := by
  rw [scanString.eq_def]
  simp only [h1, h2, h3, if_false]

theorem scanString_short (e ch : Char) (cs : List Char)
    (hu : e ≠ 'u') (h : unescape e = some ch) :
    scanString (Char.ofNat 92 :: e :: cs) =
      (scanString cs).map (fun r => (Piece.chr ch :: r.1, r.2)) := by
  have h1 : (Char.ofNat 92).toNat ≠ 34 := by decide
  have h2 : (Char.ofNat 92).toNat = 92 := by decide
  rw [scanString.eq_def]
  simp only [if_neg h1, if_pos h2, hu, h, if_false]

theorem scanString_unit (h1 h2 h3 h4 : Char) (a b c d : Nat) (cs : List Char)
    (ha : hexVal h1 = some a) (hb : hexVal h2 = some b) (hc : hexVal h3 = some c)
    (hd : hexVal h4 = some d) :
    scanString (Char.ofNat 92 :: 'u' :: h1 :: h2 :: h3 :: h4 :: cs) =
      (scanString cs).map
        (fun r => (Piece.unit (((a * 16 + b) * 16 + c) * 16 + d) :: r.1, r.2)) := by
  have e1 : (Char.ofNat 92).toNat ≠ 34 := by decide
  have e2 : (Char.ofNat 92).toNat = 92 := by decide
  rw [scanString.eq_def]
  simp only [if_neg e1, if_pos e2, ha, hb, hc, hd, if_true]

theorem decodePieces_unit (n : Nat) (ps : List Piece) (h : n < 0xD800) :
    decodePieces (.unit n :: ps) = Char.ofNat n :: decodePieces ps := by
  have hu : unitChar n = Char.ofNat n := by
    unfold unitChar
    rw [if_neg (by omega)]
  match ps with
  | [] => simp [decodePieces, hu]
  | .chr c :: rest => simp [decodePieces, hu]
  | .unit lo :: rest =>
    have hn : ¬ (0xD800 ≤ n ∧ n ≤ 0xDBFF ∧ 0xDC00 ≤ lo ∧ lo ≤ 0xDFFF) := by omega
    rw [decodePieces, if_neg hn, hu]

/-- What `json.Marshal` writes for one character is read back as that character. -/
theorem scanString_quoteChar (c : Char) (tail : List Char) (ps : List Piece)
    (rest : List Char) (h : scanString tail = some (ps, rest)) :
    ∃ p, scanString (quoteChar c ++ tail) = some (p :: ps, rest) ∧
      decodePieces (p :: ps) = c :: decodePieces ps := by
  unfold quoteChar
  split_ifs with c1 c2 c3 c4 c5 c6 c7 c8
  · refine ⟨.chr c, ?_, rfl⟩
    have hu : c ≠ 'u' := by
      rintro rfl
      revert c1
      decide
    have hun : unescape c = some c := by
      unfold unescape
      rw [if_pos (by omega)]
    simp only [List.cons_append, List.nil_append]
    rw [scanString_short c c tail hu hun, h]
    rfl
  · refine ⟨.chr c, ?_, rfl⟩
    simp only [List.cons_append, List.nil_append]
    rw [scanString_short 'b' (Char.ofNat 8) tail (by decide) (by decide), h,
      char_eq_of_toNat c 8 c2]
    rfl
  · refine ⟨.chr c, ?_, rfl⟩
    simp only [List.cons_append, List.nil_append]
    rw [scanString_short 'f' (Char.ofNat 12) tail (by decide) (by decide), h,
      char_eq_of_toNat c 12 c3]
    rfl
  · refine ⟨.chr c, ?_, rfl⟩
    simp only [List.cons_append, List.nil_append]
    rw [scanString_short 'n' (Char.ofNat 10) tail (by decide) (by decide), h,
      char_eq_of_toNat c 10 c4]
    rfl
  · refine ⟨.chr c, ?_, rfl⟩
    simp only [List.cons_append, List.nil_append]
    rw [scanString_short 'r' (Char.ofNat 13) tail (by decide) (by decide), h,
      char_eq_of_toNat c 13 c5]
    rfl
  · refine ⟨.chr c, ?_, rfl⟩
    simp only [List.cons_append, List.nil_append]
    rw [scanString_short 't' (Char.ofNat 9) tail (by decide) (by decide), h,
      char_eq_of_toNat c 9 c6]
    rfl
  · have hlt : c.toNat < 256 := by omega
    refine ⟨.unit c.toNat, ?_, ?_⟩
    · simp only [List.cons_append, List.nil_append]
      rw [scanString_unit '0' '0' _ _ 0 0 (c.toNat / 16) (c.toNat % 16) tail (by decide)
        (by decide) (hexVal_hexDigit _ (by omega)) (hexVal_hexDigit _ (by omega)), h]
      have e : ((0 * 16 + 0) * 16 + c.toNat / 16) * 16 + c.toNat % 16 = c.toNat := by omega
      rw [e]
      rfl
    · rw [decodePieces_unit _ _ (by omega), Char.ofNat_toNat]
  · refine ⟨.unit c.toNat, ?_, ?_⟩
    · simp only [List.cons_append, List.nil_append]
      rw [scanString_unit '2' '0' '2' _ 2 0 2 (c.toNat % 16) tail (by decide)
        (by decide) (by decide) (hexVal_hexDigit _ (by omega)), h]
      have e : ((2 * 16 + 0) * 16 + 2) * 16 + c.toNat % 16 = c.toNat := by omega
      rw [e]
      rfl
    · rw [decodePieces_unit _ _ (by omega), Char.ofNat_toNat]
  · refine ⟨.chr c, ?_, rfl⟩
    simp only [List.cons_append, List.nil_append]
    rw [scanString_raw c tail (by omega) (by omega) (by omega), h]
    rfl

/-- A quoted string, without its opening quote, is read back as the string. -/
theorem scanString_quoted (l rest : List Char) :
    ∃ ps, scanString (l.flatMap quoteChar ++ Char.ofNat 34 :: rest) = some (ps, rest) ∧
      decodePieces ps = l := by
  induction l with
  | nil =>
    refine ⟨[], ?_, rfl⟩
    have h : (Char.ofNat 34).toNat = 34 := by decide
    rw [List.flatMap_nil, List.nil_append, scanString.eq_def]
    simp only [if_pos h]
  | cons c l ih =>
    obtain ⟨ps, h1, h2⟩ := ih
    obtain ⟨p, h3, h4⟩ := scanString_quoteChar c _ ps rest h1
    refine ⟨p :: ps, ?_, ?_⟩
    · rw [List.flatMap_cons, List.append_assoc]
      exact h3
    · rw [h4, h2]

/-! ## Numbers written by `json.Marshal` and read by `json.Unmarshal` -/

theorem digit_toNat (n : Nat) (h : n < 10) : (Char.ofNat (48 + n)).toNat = 48 + n :=
  toNat_ofNat_small _ (by omega)

theorem natDigits_digits (fuel n : Nat) :
    ∀ c ∈ natDigits fuel n, 48 ≤ c.toNat ∧ c.toNat ≤ 57 := by
  induction fuel generalizing n with
  | zero => simp [natDigits]
  | succ fuel ih =>
    intro c hc
    unfold natDigits at hc
    split_ifs at hc with h
    · simp only [List.mem_singleton] at hc
      subst hc
      rw [digit_toNat n h]
      omega
    · simp only [List.mem_append, List.mem_singleton] at hc
      rcases hc with hc | rfl
      · exact ih _ c hc
      · rw [digit_toNat _ (Nat.mod_lt _ (by omega))]
        have := Nat.mod_lt n (show 0 < 10 by omega)
        omega

theorem natDigits_shape (fuel n : Nat) (hf : n < fuel) :
    (n = 0 ∧ natDigits fuel n = ['0']) ∨
    (0 < n ∧ ∃ d ds, natDigits fuel n = d :: ds ∧ 49 ≤ d.toNat ∧ d.toNat ≤ 57) := by
  induction fuel generalizing n with
  | zero => omega
  | succ fuel ih =>
    unfold natDigits
    split_ifs with h
    · rcases Nat.eq_zero_or_pos n with h0 | h0
      · left
        subst h0
        exact ⟨rfl, rfl⟩
      · right
        refine ⟨h0, _, [], rfl, ?_⟩
        rw [digit_toNat n h]
        omega
    · right
      refine ⟨by omega, ?_⟩
      rcases ih (n / 10) (by omega) with ⟨h0, -⟩ | ⟨-, d, ds, hd, hr⟩
      · omega
      · exact ⟨d, ds ++ [Char.ofNat (48 + n % 10)], by rw [hd]; rfl, hr⟩

theorem natDigits_value (fuel n : Nat) (hf : n < fuel) :
    (natDigits fuel n).foldl (fun a c => 10 * a + (c.toNat - 48)) 0 = n := by
  induction fuel generalizing n with
  | zero => omega
  | succ fuel ih =>
    unfold natDigits
    split_ifs with h
    · simp only [List.foldl_cons, List.foldl_nil, digit_toNat n h]
      omega
    · rw [List.foldl_append, ih (n / 10) (by omega)]
      simp only [List.foldl_cons, List.foldl_nil, digit_toNat _ (Nat.mod_lt n (by omega))]
      omega

theorem parseDigits_natDigits (fuel n : Nat) (hf : n < fuel) :
    parseDigits (natDigits fuel n) = some n := by
  have hne : natDigits fuel n ≠ [] := by
    rcases natDigits_shape fuel n hf with ⟨-, h⟩ | ⟨-, d, ds, h, -⟩ <;> simp [h]
  have hall : (natDigits fuel n).all
      (fun c => decide (48 ≤ c.toNat) && decide (c.toNat ≤ 57)) = true := by
    rw [List.all_eq_true]
    intro c hc
    have := natDigits_digits fuel n c hc
    simp [this.1, this.2]
  unfold parseDigits
  rw [if_pos ⟨hne, hall⟩, natDigits_value fuel n hf]

theorem natDigits_head_not_minus (fuel n : Nat) (hf : n < fuel) :
    ∃ d ds, natDigits fuel n = d :: ds ∧ d ≠ '-' := by
  have key : ∀ d ∈ natDigits fuel n, d ≠ '-' := by
    rintro d hd rfl
    have := natDigits_digits fuel n _ hd
    revert this
    decide
  rcases natDigits_shape fuel n hf with ⟨-, h⟩ | ⟨-, d, ds, h, -⟩
  · exact ⟨'0', [], h, by decide⟩
  · exact ⟨d, ds, h, key d (by rw [h]; simp)⟩

/-- An integer written by `json.Marshal` is read back, if it is an `int32`. -/
theorem parseInt32_formatInt (n : Int) :
    parseInt32 (formatInt n) =
      if -2147483648 ≤ n ∧ n ≤ 2147483647 then some n else none := by
  cases n with
  | ofNat k =>
    obtain ⟨d, ds, hd, hm⟩ := natDigits_head_not_minus (k + 1) k (by omega)
    have hp := parseDigits_natDigits (k + 1) k (by omega)
    simp only [formatInt]
    rw [hd] at hp ⊢
    simp only [parseInt32, hm, if_false, hp]
    have e : Int.ofNat k = (k : Int) := rfl
    by_cases hk : k ≤ 2147483647
    · rw [if_pos hk, if_pos]
      · rfl
      · rw [e]
        constructor <;> omega
    · rw [if_neg hk, if_neg]
      rw [e]
      omega
  | negSucc k =>
    have hp := parseDigits_natDigits (k + 2) (k + 1) (by omega)
    simp only [formatInt, parseInt32, if_true, hp]
    have e : Int.negSucc k = -((k : Int) + 1) := Int.negSucc_eq k
    by_cases hk : k + 1 ≤ 2147483648
    · rw [if_pos hk, if_pos]
      · rfl
      · rw [e]
        constructor <;> omega
    · rw [if_neg hk, if_neg]
      rw [e]
      omega

theorem formatInt_numChars (n : Int) : ∀ c ∈ formatInt n, isNumChar c = true := by
  have key : ∀ fuel k, ∀ c ∈ natDigits fuel k, isNumChar c = true := by
    intro fuel k c hc
    have := natDigits_digits fuel k c hc
    simp [isNumChar, this.1, this.2]
  cases n with
  | ofNat k => exact key _ _
  | negSucc k =>
    intro c hc
    simp only [formatInt, List.mem_cons] at hc
    rcases hc with rfl | hc
    · decide
    · exact key _ _ c hc

theorem formatInt_ne_nil (n : Int) : ∃ c cs, formatInt n = c :: cs := by
  cases n with
  | ofNat k =>
    obtain ⟨d, ds, hd, -⟩ := natDigits_head_not_minus (k + 1) k (by omega)
    exact ⟨d, ds, hd⟩
  | negSucc k => exact ⟨'-', _, rfl⟩

theorem numberRe_natDigits (fuel k : Nat) (hf : k < fuel) (pre : List Char)
    (hpre : Regexp.matchChars (.alt .eps (.lit '-')) pre = true) :
    numberRe.matchChars (pre ++ natDigits fuel k) = true := by
  unfold numberRe
  rw [Regexp.matchChars_cat]
  refine ⟨pre, natDigits fuel k, rfl, hpre, ?_⟩
  rw [Regexp.matchChars_cat]
  refine ⟨natDigits fuel k, [], by simp, ?_, ?_⟩
  · rw [Regexp.matchChars_alt, Bool.or_eq_true]
    rcases natDigits_shape fuel k hf with ⟨-, h⟩ | ⟨-, d, ds, h, hd1, hd2⟩
    · left
      rw [h]
      decide
    · right
      rw [Regexp.matchChars_cat]
      refine ⟨[d], ds, by rw [h]; rfl, ?_, ?_⟩
      · rw [Regexp.matchChars_cls]
        refine ⟨d, rfl, ?_⟩
        simp only [List.any_cons, List.any_nil, ClassItem.test, Bool.or_false,
          Bool.and_eq_true, decide_eq_true_eq]
        exact ⟨hd1, hd2⟩
      · rw [Regexp.matchChars_star_cls]
        intro c hc
        have := natDigits_digits fuel k c (by rw [h]; exact List.mem_cons_of_mem _ hc)
        simp only [List.any_cons, List.any_nil, ClassItem.test, Bool.or_false,
          Bool.and_eq_true, decide_eq_true_eq]
        exact this
  · decide

theorem numberRe_formatInt (n : Int) : numberRe.matchChars (formatInt n) = true := by
  cases n with
  | ofNat k => exact numberRe_natDigits (k + 1) k (by omega) [] (by decide)
  | negSucc k => exact numberRe_natDigits (k + 2) (k + 1) (by omega) ['-'] (by decide)

/-! ## The tokens of what `json.Marshal` writes -/

theorem Lexes_nil : Lexes [] [] := by
  intro fuel hf
  cases fuel with
  | zero => simp at hf
  | succ f => rfl

theorem Lexes_punct (c : Char) (tok : Token) (s : List Char) (ts : List Token)
    (hc : (c = Char.ofNat 91 ∧ tok = .lbracket) ∨ (c = Char.ofNat 93 ∧ tok = .rbracket) ∨
      (c = Char.ofNat 123 ∧ tok = .lbrace) ∨ (c = Char.ofNat 125 ∧ tok = .rbrace) ∨
      (c = Char.ofNat 58 ∧ tok = .colon) ∨ (c = Char.ofNat 44 ∧ tok = .comma))
    (h : Lexes s ts) : Lexes (c :: s) (tok :: ts) := by
  intro fuel hf
  cases fuel with
  | zero => simp at hf
  | succ f =>
    have hs := h f (by simpa using hf)
    rcases hc with ⟨rfl, rfl⟩ | ⟨rfl, rfl⟩ | ⟨rfl, rfl⟩ | ⟨rfl, rfl⟩ | ⟨rfl, rfl⟩ | ⟨rfl, rfl⟩ <;>
      simp [lexAux, hs]

theorem Lexes_string (s : String) (rest : List Char) (ts : List Token)
    (h : Lexes rest ts) : Lexes (quoteString s ++ rest) (.str s :: ts) := by
  intro fuel hf
  cases fuel with
  | zero => simp at hf
  | succ f =>
    obtain ⟨ps, hscan, hdec⟩ := scanString_quoted s.data rest
    have hlen : rest.length < f := by
      simp only [quoteString, List.cons_append, List.append_assoc, List.length_cons,
        List.length_append, List.length_nil] at hf
      omega
    have hs := h f hlen
    have e : quoteString s ++ rest =
        Char.ofNat 34 :: (s.data.flatMap quoteChar ++ Char.ofNat 34 :: rest) := by
      simp [quoteString]
    rw [e]
    have h1 : ¬ (Char.ofNat 34 = ' ' ∨ Char.ofNat 34 = '\t' ∨ Char.ofNat 34 = '\r' ∨
        Char.ofNat 34 = '\n') := by decide
    have h2 : (Char.ofNat 34).toNat = 34 := by decide
    simp only [lexAux, if_neg h1, h2, hscan, hs, hdec]
    simp

theorem isNumChar_first (c : Char) (h : isNumChar c = true) :
    ¬ (c = ' ' ∨ c = '\t' ∨ c = '\r' ∨ c = '\n') ∧ c.toNat ≠ 91 ∧ c.toNat ≠ 93 ∧
      c.toNat ≠ 123 ∧ c.toNat ≠ 125 ∧ c.toNat ≠ 58 ∧ c.toNat ≠ 44 ∧ c.toNat ≠ 34 := by
  simp only [isNumChar, Bool.or_eq_true, Bool.and_eq_true, decide_eq_true_eq,
    beq_iff_eq] at h
  rcases h with ((((⟨h1, h2⟩ | rfl) | rfl) | rfl) | rfl) | rfl
  · refine ⟨?_, by omega, by omega, by omega, by omega, by omega, by omega, by omega⟩
    rintro (rfl | rfl | rfl | rfl) <;> revert h1 <;> decide
  all_goals decide

theorem Lexes_number (n : Int) (rest : List Char) (ts : List Token)
    (h : Lexes (Char.ofNat 125 :: rest) ts) :
    Lexes (formatInt n ++ Char.ofNat 125 :: rest) (.num ⟨formatInt n⟩ :: ts) := by
  intro fuel hf
  cases fuel with
  | zero => simp at hf
  | succ f =>
    obtain ⟨c, cs, hc⟩ := formatInt_ne_nil n
    have hnum := formatInt_numChars n
    have hcnum : isNumChar c = true := hnum c (by rw [hc]; simp)
    obtain ⟨w, b1, b2, b3, b4, b5, b6, b7⟩ := isNumChar_first c hcnum
    have htake : (formatInt n ++ Char.ofNat 125 :: rest).takeWhile isNumChar = formatInt n := by
      rw [List.takeWhile_append_of_pos hnum]
      have : isNumChar (Char.ofNat 125) = false := by decide
      simp [List.takeWhile_cons, this]
    have hdrop : (formatInt n ++ Char.ofNat 125 :: rest).dropWhile isNumChar =
        Char.ofNat 125 :: rest := by
      rw [List.dropWhile_append_of_pos hnum]
      have : isNumChar (Char.ofNat 125) = false := by decide
      simp [List.dropWhile_cons, this]
    have hlen : (Char.ofNat 125 :: rest).length < f := by
      rw [hc] at hf
      simp only [List.cons_append, List.length_cons, List.length_append] at hf ⊢
      omega
    have hs := h f hlen
    have hre := numberRe_formatInt n
    rw [hc] at htake hdrop
    rw [hc, List.cons_append]
    simp only [lexAux, if_neg w, if_neg b1, if_neg b2, if_neg b3, if_neg b4, if_neg b5,
      if_neg b6, if_neg b7, hcnum, if_true]
    rw [List.cons_append] at htake hdrop
    rw [htake, hdrop, ← hc, hre, hs]
    rfl

theorem marshalEntry_eq (v : redirect) :
    marshalEntry v =
      Char.ofNat 123 :: (quoteString "Shortname" ++ (Char.ofNat 58 ::
        (quoteString v.Shortname ++ (Char.ofNat 44 :: (quoteString "Url" ++ (Char.ofNat 58 ::
          (quoteString v.Url ++ (Char.ofNat 44 :: (quoteString "Requests" ++ (Char.ofNat 58 ::
            (formatInt v.Requests ++ [Char.ofNat 125]))))))))))) := by
  have e1 : "\x7b\"Shortname\":".data =
      Char.ofNat 123 :: (quoteString "Shortname" ++ [Char.ofNat 58]) := by decide
  have e2 : ",\"Url\":".data = Char.ofNat 44 :: (quoteString "Url" ++ [Char.ofNat 58]) := by
    decide
  have e3 : ",\"Requests\":".data =
      Char.ofNat 44 :: (quoteString "Requests" ++ [Char.ofNat 58]) := by decide
  have e4 : "\x7d".data = [Char.ofNat 125] := by decide
  rw [marshalEntry, e1, e2, e3, e4]
  simp only [List.cons_append, List.append_assoc, List.nil_append]

theorem Lexes_entry (v : redirect) (rest : List Char) (ts : List Token)
    (h : Lexes rest ts) : Lexes (marshalEntry v ++ rest) (entryTokens v ++ ts) := by
  rw [marshalEntry_eq]
  simp only [List.cons_append, List.append_assoc, List.nil_append, entryTokens]
  apply Lexes_punct _ _ _ _ (by simp)
  apply Lexes_string
  apply Lexes_punct _ _ _ _ (by simp)
  apply Lexes_string
  apply Lexes_punct _ _ _ _ (by simp)
  apply Lexes_string
  apply Lexes_punct _ _ _ _ (by simp)
  apply Lexes_string
  apply Lexes_punct _ _ _ _ (by simp)
  apply Lexes_string
  apply Lexes_punct _ _ _ _ (by simp)
  apply Lexes_number
  exact Lexes_punct _ _ _ _ (by simp) h

theorem Lexes_entries (l : List redirect) (rest : List Char) (ts : List Token)
    (h : Lexes rest ts) :
    Lexes (joinEntries (l.map marshalEntry) ++ rest) (joinTokens (l.map entryTokens) ++ ts) := by
  induction l with
  | nil => simpa [joinEntries, joinTokens] using h
  | cons v l ih =>
    cases l with
    | nil =>
      simp only [List.map_cons, List.map_nil, joinEntries, joinTokens]
      exact Lexes_entry v rest ts h
    | cons w l =>
      simp only [List.map_cons, joinEntries, joinTokens, List.append_assoc, List.cons_append]
      apply Lexes_entry
      have hc : (',' : Char) = Char.ofNat 44 := by decide
      rw [hc]
      apply Lexes_punct _ _ _ _ (by simp)
      simpa using ih

/-- The tokens of the text `json.Marshal` writes for a list of entries. -/
theorem lex_Marshal (l : List redirect) :
    lex (Marshal l) =
      some (Token.lbracket :: (joinTokens (l.map entryTokens) ++ [Token.rbracket])) := by
  have h : Lexes (Marshal l).data
      (Token.lbracket :: (joinTokens (l.map entryTokens) ++ [Token.rbracket])) := by
    have hc : ('[' : Char) = Char.ofNat 91 := by decide
    have hd : (']' : Char) = Char.ofNat 93 := by decide
    show Lexes ('[' :: (joinEntries (l.map marshalEntry) ++ [']'])) _
    rw [hc, hd]
    apply Lexes_punct _ _ _ _ (by simp)
    apply Lexes_entries
    exact Lexes_punct _ _ _ _ (by simp) Lexes_nil
  exact h _ (Nat.lt_succ_self _)

/-! ## Decoding what `json.Marshal` writes -/

theorem wf_entry (v : redirect) (stack : List Bool) (rest : List Token)
    (hd : stack.length < 10000) :
    wellFormedAux stack .value (entryTokens v ++ rest) = wellFormedAux stack .after rest ∧
    wellFormedAux stack .firstValue (entryTokens v ++ rest) =
      wellFormedAux stack .after rest := by
  simp [entryTokens, wellFormedAux, Token.isScalar, hd]

theorem wf_entries (l : List redirect) (hl : l ≠ []) :
    wellFormedAux [false] .value (joinTokens (l.map entryTokens) ++ [Token.rbracket]) = true ∧
    wellFormedAux [false] .firstValue (joinTokens (l.map entryTokens) ++ [Token.rbracket])
      = true := by
  induction l with
  | nil => exact absurd rfl hl
  | cons v l ih =>
    cases l with
    | nil =>
      simp only [List.map_cons, List.map_nil, joinTokens]
      rw [(wf_entry v [false] _ (by simp)).1, (wf_entry v [false] _ (by simp)).2]
      simp [wellFormedAux]
    | cons w l =>
      have ih1 := (ih (by simp)).1
      simp only [List.map_cons, joinTokens, List.append_assoc, List.cons_append] at ih1 ⊢
      rw [(wf_entry v [false] _ (by simp)).1, (wf_entry v [false] _ (by simp)).2]
      simp only [wellFormedAux]
      exact ⟨ih1, ih1⟩

theorem wellFormed_Marshal (l : List redirect) :
    wellFormed (Token.lbracket :: (joinTokens (l.map entryTokens) ++ [Token.rbracket]))
      = true := by
  cases l with
  | nil => simp [wellFormed, wellFormedAux, joinTokens, Token.isScalar]
  | cons v l =>
    have h := (wf_entries (v :: l) (by simp)).2
    simpa [wellFormed, wellFormedAux, Token.isScalar] using h

theorem splitTop_entry (v : redirect) (rest : List Token) :
    splitTop 0 (entryTokens v ++ Token.comma :: rest) = entryTokens v :: splitTop 0 rest := by
  simp [entryTokens, splitTop]

theorem splitTop_entry_last (v : redirect) : splitTop 0 (entryTokens v) = [entryTokens v] := by
  simp [entryTokens, splitTop]

theorem members_entries (l : List redirect) :
    members (joinTokens (l.map entryTokens)) = l.map entryTokens := by
  cases l with
  | nil => simp [members, joinTokens]
  | cons v l =>
    have hne : joinTokens ((v :: l).map entryTokens) ≠ [] := by
      cases l <;> simp [joinTokens, entryTokens]
    rw [members, if_neg hne]
    induction l generalizing v with
    | nil => simpa [joinTokens] using splitTop_entry_last v
    | cons w l ih =>
      have hne2 : joinTokens ((w :: l).map entryTokens) ≠ [] := by
        cases l <;> simp [joinTokens, entryTokens]
      simp only [List.map_cons, joinTokens] at ih ⊢
      rw [splitTop_entry, ih w hne2]

theorem decodeElem_entry (v : redirect) :
    decodeElem (entryTokens v) =
      (some (readBack v),
        decide (¬ (-2147483648 ≤ v.Requests ∧ v.Requests ≤ 2147483647))) := by
  have h1 : foldName "Shortname" = "SHORTNAME" := by decide
  have h2 : foldName "Url" ≠ "SHORTNAME" := by decide
  have h3 : foldName "Url" = "URL" := by decide
  have h4 : foldName "Requests" ≠ "SHORTNAME" := by decide
  have h5 : foldName "Requests" ≠ "URL" := by decide
  have h6 : foldName "Requests" = "REQUESTS" := by decide
  have hm : members [Token.str "Shortname", .colon, .str v.Shortname, .comma, .str "Url", .colon,
      .str v.Url, .comma, .str "Requests", .colon, .num ⟨formatInt v.Requests⟩] =
      [[Token.str "Shortname", .colon, .str v.Shortname], [.str "Url", .colon, .str v.Url],
       [.str "Requests", .colon, .num ⟨formatInt v.Requests⟩]] := by
    simp [members, splitTop]
  simp only [entryTokens, decodeElem, List.dropLast, hm, List.foldl_cons, List.foldl_nil,
    decodeField, h1, h2, h3, h4, h5, h6, if_true, if_false, storeString, storeInt32,
    parseInt32_formatInt, readBack]
  by_cases hr : -2147483648 ≤ v.Requests ∧ v.Requests ≤ 2147483647
  · simp [hr]
  · simp [hr]

theorem decodeTop_Marshal (l : List redirect) :
    decodeTop (Token.lbracket :: (joinTokens (l.map entryTokens) ++ [Token.rbracket])) =
      (l.map (fun v => some (readBack v)),
        l.any (fun v => decide (¬ (-2147483648 ≤ v.Requests ∧ v.Requests ≤ 2147483647)))) := by
  have hm : (l.map entryTokens).map decodeElem =
      l.map (fun v => (some (readBack v),
        decide (¬ (-2147483648 ≤ v.Requests ∧ v.Requests ≤ 2147483647)))) := by
    rw [List.map_map]
    apply List.map_congr_left
    intro v _
    exact decodeElem_entry v
  simp only [decodeTop, List.dropLast_concat, members_entries, hm, List.map_map]
  refine Prod.ext ?_ ?_
  · rfl
  · show (List.map _ l).any Prod.snd = l.any _
    clear hm
    induction l with
    | nil => rfl
    | cons v l ih => simp only [List.map_cons, List.any_cons, ih]

/-- What `json.Unmarshal` makes of what `json.Marshal` wrote. -/
theorem Unmarshal_Marshal (l : List redirect) :
    Unmarshal (Marshal l) =
      (l.map (fun v => some (readBack v)),
        if l.any (fun v => decide (¬ (-2147483648 ≤ v.Requests ∧ v.Requests ≤ 2147483647)))
        then some .typeError else none) := by
  simp only [Unmarshal, lex_Marshal, wellFormed_Marshal, if_true, decodeTop_Marshal]

/-! ## The claims -/

/-- C1, counterexample.  The registry holds the single entry `wiki` with
`Requests = 0`; the request `/wiki` has the candidate shortname `wiki` and is
redirected, and afterwards the entry still has `Requests = 0`: no entry with
shortname `wiki` has the counter `0 + 1`. -/
theorem C1_counter_not_incremented :
    Split "wiki" '/' = ["wiki"] ∧ Trim "wiki" ' ' = "wiki" ∧
    ∃ r, settings.redirect ⟨[⟨"wiki", "http://example.com/Wiki", 0⟩], "redirects.json"⟩
        "/wiki" = some r ∧
      Output.Redirect "http://example.com/Wiki" 302 ∈ r.w ∧
      r.m.redirects = [⟨"wiki", "http://example.com/Wiki", 0⟩] ∧
      ¬ ∃ v ∈ r.m.redirects, v.Shortname = "wiki" ∧ v.Requests = 0 + 1 := by
  refine ⟨by decide, by decide, ?_⟩
  have h := redirect_eq ⟨[⟨"wiki", "http://example.com/Wiki", 0⟩], "redirects.json"⟩
    "wiki" "wiki" [] (by decide)
  exact ⟨_, h, by decide, rfl, by decide⟩

/-- C1, amended.  For every registry that contains an entry with shortname `s`
and every redirect request whose candidate shortname (first path segment, trimmed
of spaces) is `s`, the redirect handler leaves the whole registry unchanged, the
matched entry and its `Requests` counter included, and saves nothing. -/
theorem C1_redirect_keeps_counters (m : settings) (rest seg0 s : String)
    (segs : List String)
    (_hs : ∃ v ∈ m.redirects, v.Shortname = s)
    (hsplit : Split rest '/' = seg0 :: segs) (_hcand : Trim seg0 ' ' = s) :
    ∃ r, m.redirect ("/" ++ rest) = some r ∧ r.m = m ∧ r.saved = [] ∧
      ∀ v ∈ m.redirects, v.Shortname = s →
        ∃ v1 ∈ r.m.redirects, v1 = v ∧ v1.Requests = v.Requests :=
  ⟨_, redirect_eq m rest seg0 segs hsplit, rfl, rfl, fun v hv _ => ⟨v, hv, rfl, rfl⟩⟩

/-- C1, witness: the request `/wiki/Page` on a registry with the entries `doc`
and `wiki`. -/
theorem C1_redirect_keeps_counters_witness :
    (∃ v ∈ [(⟨"doc", "https://d.org", 3⟩ : redirect), ⟨"wiki", "http://example.com/Wiki", 7⟩],
      v.Shortname = "wiki") ∧
    Split "wiki/Page" '/' = ["wiki", "Page"] ∧ Trim "wiki" ' ' = "wiki" ∧
    ∃ r, settings.redirect
        ⟨[⟨"doc", "https://d.org", 3⟩, ⟨"wiki", "http://example.com/Wiki", 7⟩], "redirects.json"⟩
        ("/" ++ "wiki/Page") = some r ∧
      r.m = ⟨[⟨"doc", "https://d.org", 3⟩, ⟨"wiki", "http://example.com/Wiki", 7⟩],
        "redirects.json"⟩ ∧ r.saved = [] :=
  ⟨by decide, by decide, by decide,
    (C1_redirect_keeps_counters
      ⟨[⟨"doc", "https://d.org", 3⟩, ⟨"wiki", "http://example.com/Wiki", 7⟩], "redirects.json"⟩
      "wiki/Page" "wiki" "wiki" ["Page"] (by decide) (by decide) (by decide)).imp
      (fun _ h => ⟨h.1, h.2.1, h.2.2.1⟩)⟩

/-- C2.  For every add path the validator accepts, with segments `p`, `s`,
`t1..tn`, and every registry without an entry of shortname `s`: `addLink` returns,
the registry afterwards is the old list followed by the one new entry
`{s, p ++ "://" ++ (trimmed t1..tn joined by "/"), 0}`, and the one call of
`saveToDisk` is handed that whole list.  In particular `http/wiki/example.com/Wiki`
on the empty registry yields the single entry `{wiki, http://example.com/Wiki, 0}`. -/
theorem C2_addLink_appends (m : settings) (d : Disk) (path p s : String) (ts : List String)
    (hacc : validReq.MatchString path = true)
    (hseg : Split path '/' = p :: s :: ts)
    (hnew : ∀ v ∈ m.redirects, v.Shortname ≠ s) :
    (∃ r, m.addLink d ("/add/" ++ path) = some r ∧
      r.m.redirects = m.redirects ++
        [{ Shortname := s
           Url := p ++ "://" ++ Join (ts.map (fun t => Trim t ' ')) "/"
           Requests := 0 }] ∧
      r.m.filename = m.filename ∧
      r.saved = [r.m.redirects]) ∧
    (∀ (d0 : Disk) (file : String),
      ∃ r, (newRedirector file).addLink d0 "/add/http/wiki/example.com/Wiki" = some r ∧
        r.m.redirects = [⟨"wiki", "http://example.com/Wiki", 0⟩] ∧
        r.saved = [[⟨"wiki", "http://example.com/Wiki", 0⟩]]) := by
  constructor
  · have h := addLink_accepted m d path p s ts hacc hseg
    rw [(firstMatch_eq_none s m.redirects).mpr hnew] at h
    exact ⟨_, h, rfl, rfl, rfl⟩
  · intro d0 file
    have h := addLink_accepted (newRedirector file) d0 "http/wiki/example.com/Wiki"
      "http" "wiki" ["example.com", "Wiki"] (by decide) (by decide)
    have e : "http" ++ "://" ++ Join (List.map (fun x => Trim x ' ') ["example.com", "Wiki"]) "/"
        = "http://example.com/Wiki" := by decide
    rw [e] at h
    exact ⟨_, h, rfl, rfl⟩

/-- C2, witness: `ftp/files/ host.org /pub` added to a registry that holds `wiki`. -/
theorem C2_addLink_appends_witness :
    validReq.MatchString "ftp/files/ host.org /pub" = true ∧
    Split "ftp/files/ host.org /pub" '/' = ["ftp", "files", " host.org ", "pub"] ∧
    ∃ r, settings.addLink ⟨[⟨"wiki", "http://example.com/Wiki", 0⟩], "redirects.json"⟩
        ⟨none, none⟩ ("/add/" ++ "ftp/files/ host.org /pub") = some r ∧
      r.m.redirects =
        [⟨"wiki", "http://example.com/Wiki", 0⟩, ⟨"files", "ftp://host.org/pub", 0⟩] ∧
      r.saved = [r.m.redirects] :=
  ⟨by decide, by decide,
    (C2_addLink_appends ⟨[⟨"wiki", "http://example.com/Wiki", 0⟩], "redirects.json"⟩
      ⟨none, none⟩ "ftp/files/ host.org /pub" "ftp" "files" [" host.org ", "pub"]
      (by decide) (by decide) (by decide)).1.imp
      (fun _ h => ⟨h.1, h.2.1, h.2.2.2⟩)⟩

/-- C3, the code at the failing input: the add request `/add/http/wiki/other.org`
on the registry read from the config file
`[{"Shortname":"wiki","Url":"http://example.com/50%off","Requests":0}]`.  The
registry is left as it is and nothing is saved, as the claim says; but `sendHtml`
passes its text to `fmt.Fprintf` as the format (line 164), so the page reads
"Shortname already points to http://example.com/50%!o(MISSING)ff" and does not
report the Url of the entry.  In general the page is the text
"Shortname already points to " followed by the Url of the first entry with the
shortname, written as a format; it is that text itself when the Url holds no `%`. -/
theorem C3_duplicate_page_is_a_format :
    readConfig (some
        "[\x7b\"Shortname\":\"wiki\",\"Url\":\"http://example.com/50%off\",\"Requests\":0\x7d]") =
      [some ⟨"wiki", "http://example.com/50%off", 0⟩] ∧
    validReq.MatchString "http/wiki/other.org" = true ∧
    settings.addLink ⟨[⟨"wiki", "http://example.com/50%off", 0⟩], "redirects.json"⟩ ⟨none, none⟩
        "/add/http/wiki/other.org" =
      some { m := ⟨[⟨"wiki", "http://example.com/50%off", 0⟩], "redirects.json"⟩
             w := [.Write "<html>\n                                <head>\n                                <title>Redirects Setup</title>\n                                </head>\n                                <body>",
                   .Write "Shortname already points to http://example.com/50%!o(MISSING)ff",
                   .Write "</body>\n                                </html>"]
             saved := [] } ∧
    (∀ (m : settings) (d : Disk) (path p s : String) (ts : List String) (v : redirect),
      validReq.MatchString path = true → Split path '/' = p :: s :: ts →
      m.redirects.find? (fun e => decide (e.Shortname = s)) = some v →
      m.addLink d ("/add/" ++ path) =
        some { m := m
               w := [.Write "<html>\n                                <head>\n                                <title>Redirects Setup</title>\n                                </head>\n                                <body>",
                     .Write (Sprintf ("Shortname already points to " ++ v.Url)),
                     .Write "</body>\n                                </html>"]
               saved := [] } ∧
      ('%' ∉ v.Url.data →
        Sprintf ("Shortname already points to " ++ v.Url) =
          "Shortname already points to " ++ v.Url)) := by
  refine ⟨by decide, by decide, ?_, ?_⟩
  · have h := addLink_accepted ⟨[⟨"wiki", "http://example.com/50%off", 0⟩], "redirects.json"⟩
      ⟨none, none⟩ "http/wiki/other.org" "http" "wiki" ["other.org"] (by decide) (by decide)
    have hf : firstMatch "wiki" [(⟨"wiki", "http://example.com/50%off", 0⟩ : redirect)] =
        some (0, ⟨"wiki", "http://example.com/50%off", 0⟩) := by decide
    have e : Sprintf ("Shortname already points to " ++ "http://example.com/50%off") =
        "Shortname already points to http://example.com/50%!o(MISSING)ff" := by decide
    rw [hf] at h
    simp only [sendHtml_eq, e] at h
    exact h
  · intro m d path p s ts v hacc hseg hfind
    obtain ⟨i, hi⟩ := firstMatch_of_find _ _ _ hfind
    have h := addLink_accepted m d path p s ts hacc hseg
    rw [hi] at h
    simp only [sendHtml_eq] at h
    refine ⟨h, fun hp => Sprintf_no_percent _ ?_⟩
    intro e
    simp only [String.data_append, List.mem_append] at e
    rcases e with e | e
    · revert e
      decide
    · exact hp e

/-- C4.  For every registry and every add path the validator rejects, `addLink`
returns with the settings unchanged, no call of `saveToDisk`, and only the usage
page rendered; and `ftp//badshort/x` is such a rejected path. -/
theorem C4_addLink_rejected (m : settings) (d : Disk) (path : String)
    (hrej : validReq.MatchString path = false) :
    m.addLink d ("/add/" ++ path) = some { m := m, w := sendHtml usage, saved := [] } ∧
    validReq.MatchString "ftp//badshort/x" = false :=
  ⟨addLink_rejected m d path hrej, by decide⟩

/-- C4, witness: the path `ftp//badshort/x` on a registry that holds `wiki`. -/
theorem C4_addLink_rejected_witness :
    validReq.MatchString "ftp//badshort/x" = false ∧
    settings.addLink ⟨[⟨"wiki", "http://example.com/Wiki", 0⟩], "redirects.json"⟩
        ⟨none, none⟩ ("/add/" ++ "ftp//badshort/x") =
      some { m := ⟨[⟨"wiki", "http://example.com/Wiki", 0⟩], "redirects.json"⟩
             w := sendHtml usage, saved := [] } :=
  ⟨by decide,
    (C4_addLink_rejected ⟨[⟨"wiki", "http://example.com/Wiki", 0⟩], "redirects.json"⟩
      ⟨none, none⟩ "ftp//badshort/x" (by decide)).1⟩

/-- C5, the code at the failing input `http/a,b/x`.  The pattern of line 121
accepts the path although its shortname segment `a,b` holds a comma, so the path
does not have the form `p/s/t` of the specification; `addLink` stores the
shortname `a,b`. -/
theorem C5_comma_in_shortname_accepted :
    validReq.MatchString "http/a,b/x" = true ∧
    specReq.MatchString "http/a,b/x" = false ∧
    ¬ SpecForm "http/a,b/x" ∧
    ∃ r, (newRedirector "redirects.json").addLink ⟨none, none⟩ "/add/http/a,b/x" = some r ∧
      r.m.redirects = [⟨"a,b", "http://x", 0⟩] := by
  refine ⟨by decide, by decide, fun h => ?_, ?_⟩
  · exact absurd ((specReq_iff _).mpr h) (by decide)
  · have h := addLink_accepted (newRedirector "redirects.json") ⟨none, none⟩ "http/a,b/x"
      "http" "a,b" ["x"] (by decide) (by decide)
    have e : "http" ++ "://" ++ Join (List.map (fun x => Trim x ' ') ["x"]) "/" = "http://x" := by
      decide
    rw [e] at h
    exact ⟨_, h, rfl⟩

/-- C6, the code at the failing input `http/wiki/my-site.com`.  The path has the
form `p/s/t` of the specification, whose target class holds the hyphen, and the
pattern of line 121 rejects it: `addLink` renders the usage page and stores
nothing. -/
theorem C6_hyphen_in_target_rejected :
    SpecForm "http/wiki/my-site.com" ∧
    specReq.MatchString "http/wiki/my-site.com" = true ∧
    validReq.MatchString "http/wiki/my-site.com" = false ∧
    (newRedirector "redirects.json").addLink ⟨none, none⟩ "/add/http/wiki/my-site.com" =
      some { m := newRedirector "redirects.json", w := sendHtml usage, saved := [] } :=
  ⟨(specReq_iff _).mp (by decide), by decide, by decide,
    addLink_rejected (newRedirector "redirects.json") ⟨none, none⟩ "http/wiki/my-site.com"
      (by decide)⟩

/-- C7, counterexample.  The segments of `http/ wiki/example.com`, trimmed, are
`http`, `wiki`, `example.com`, a well-formed triple for the specification and for
the pattern of the code alike; yet `addLink` rejects the path, because it matches
the pattern against the path as received, and stores nothing. -/
theorem C7_space_before_shortname_rejected :
    (Split "http/ wiki/example.com" '/').map (fun x => Trim x ' ') =
      ["http", "wiki", "example.com"] ∧
    SpecForm "http/wiki/example.com" ∧
    validReq.MatchString "http/wiki/example.com" = true ∧
    validReq.MatchString "http/ wiki/example.com" = false ∧
    (newRedirector "redirects.json").addLink ⟨none, none⟩ "/add/http/ wiki/example.com" =
      some { m := newRedirector "redirects.json", w := sendHtml usage, saved := [] } :=
  ⟨by decide, (specReq_iff _).mp (by decide), by decide, by decide,
    addLink_rejected (newRedirector "redirects.json") ⟨none, none⟩ "http/ wiki/example.com"
      (by decide)⟩

/-- C7, amended.  Whitespace at segment boundaries is trimmed after validation
and before storage: for every add path that the validator accepts as received,
with the trimmed segments `p`, `s`, `t1..tn` and no entry of shortname `s` in the
registry, `addLink` returns and the stored Shortname and Url are built from the
trimmed segments: the new entry is `{s, p ++ "://" ++ (t1..tn joined by "/"), 0}`. -/
theorem C7_trimmed_after_validation (m : settings) (d : Disk) (path p s : String)
    (ts : List String)
    (hacc : validReq.MatchString path = true)
    (htrim : (Split path '/').map (fun x => Trim x ' ') = p :: s :: ts)
    (hnew : ∀ v ∈ m.redirects, v.Shortname ≠ s) :
    ∃ r, m.addLink d ("/add/" ++ path) = some r ∧
      r.m.redirects = m.redirects ++
        [{ Shortname := s, Url := p ++ "://" ++ Join ts "/", Requests := 0 }] := by
  obtain ⟨p1, s1, t1, -, -, -, -, -, -, hsplit, hp, hsn⟩ := accepted_split path hacc
  rw [hsplit, List.map_cons, List.map_cons, hp, hsn] at htrim
  simp only [List.cons.injEq] at htrim
  obtain ⟨rfl, rfl, rfl⟩ := htrim
  have h := addLink_accepted m d path p1 s1 (Split t1 '/') hacc hsplit
  rw [(firstMatch_eq_none s1 m.redirects).mpr hnew] at h
  exact ⟨_, h, rfl⟩

/-- C7, witness: the spaces around the target segments of
`http/wiki/ example.com / Wiki ` are not stored. -/
theorem C7_trimmed_after_validation_witness :
    validReq.MatchString "http/wiki/ example.com / Wiki " = true ∧
    (Split "http/wiki/ example.com / Wiki " '/').map (fun x => Trim x ' ') =
      ["http", "wiki", "example.com", "Wiki"] ∧
    ∃ r, (newRedirector "redirects.json").addLink ⟨none, none⟩
        ("/add/" ++ "http/wiki/ example.com / Wiki ") = some r ∧
      r.m.redirects =
        [] ++ [{ Shortname := "wiki"
                 Url := "http" ++ "://" ++ Join ["example.com", "Wiki"] "/"
                 Requests := 0 }] :=
  ⟨by decide, by decide,
    C7_trimmed_after_validation (newRedirector "redirects.json") ⟨none, none⟩
      "http/wiki/ example.com / Wiki " "http" "wiki" ["example.com", "Wiki"]
      (by decide) (by decide) (by decide)⟩

/-- C8.  For every request path `"/" ++ rest` with `rest` split on "/" into `seg0`
and `segs`: if `v` is the first entry whose Shortname is `seg0` trimmed of
spaces, the redirect handler returns and calls `http.Redirect` with status 302 and
the target `v.Url` joined with `segs`, in order and unmodified, by "/" (just
`v.Url` when there are no further segments); it issues no other redirect.  In
particular, with the entry `{wiki, http://example.com/Wiki}`, the path
`/wiki/Page` is redirected to `http://example.com/Wiki/Page`. -/
theorem C8_redirect_target (m : settings) (rest seg0 : String) (segs : List String)
    (v : redirect)
    (hsplit : Split rest '/' = seg0 :: segs)
    (hfirst : m.redirects.find? (fun e => decide (e.Shortname = Trim seg0 ' ')) = some v) :
    (∃ r, m.redirect ("/" ++ rest) = some r ∧
      Output.Redirect (Join (v.Url :: segs) "/") 302 ∈ r.w ∧
      (∀ u c, Output.Redirect u c ∈ r.w → u = Join (v.Url :: segs) "/" ∧ c = 302) ∧
      (segs = [] → Output.Redirect v.Url 302 ∈ r.w)) ∧
    (∀ (n : Int) (file : String),
      ∃ r, settings.redirect ⟨[⟨"wiki", "http://example.com/Wiki", n⟩], file⟩ "/wiki/Page"
          = some r ∧
        Output.Redirect "http://example.com/Wiki/Page" 302 ∈ r.w) := by
  constructor
  · obtain ⟨i, hi⟩ := firstMatch_of_find _ _ _ hfirst
    have h := redirect_eq m rest seg0 segs hsplit
    rw [hi] at h
    refine ⟨_, h, by simp, ?_, ?_⟩
    · intro u c huc
      simpa [sendHtml] using huc
    · rintro rfl
      simp [Join]
  · intro n file
    have h := redirect_eq ⟨[⟨"wiki", "http://example.com/Wiki", n⟩], file⟩
      "wiki/Page" "wiki" ["Page"] (by decide)
    have e : Join ["http://example.com/Wiki", "Page"] "/" = "http://example.com/Wiki/Page" := by
      decide
    refine ⟨_, h, ?_⟩
    have hf : firstMatch (Trim "wiki" ' ') [(⟨"wiki", "http://example.com/Wiki", n⟩ : redirect)]
        = some (0, ⟨"wiki", "http://example.com/Wiki", n⟩) := by
      have ht : Trim "wiki" ' ' = "wiki" := by decide
      simp [firstMatch, ht]
    simp only [hf, e]
    simp

/-- C8, witness: the request `/ doc /a/b` on a registry that holds `doc` twice is
redirected to the Url of the first of the two. -/
theorem C8_redirect_target_witness :
    Split " doc /a/b" '/' = [" doc ", "a", "b"] ∧
    List.find? (fun e => decide (e.Shortname = Trim " doc " ' '))
      [(⟨"wiki", "http://example.com/Wiki", 0⟩ : redirect), ⟨"doc", "https://d.org/x", 1⟩,
        ⟨"doc", "ftp://other", 2⟩] = some ⟨"doc", "https://d.org/x", 1⟩ ∧
    ∃ r, settings.redirect
        ⟨[⟨"wiki", "http://example.com/Wiki", 0⟩, ⟨"doc", "https://d.org/x", 1⟩,
          ⟨"doc", "ftp://other", 2⟩], "redirects.json"⟩ ("/" ++ " doc /a/b") = some r ∧
      Output.Redirect (Join ["https://d.org/x", "a", "b"] "/") 302 ∈ r.w :=
  ⟨by decide, by decide,
    (C8_redirect_target
      ⟨[⟨"wiki", "http://example.com/Wiki", 0⟩, ⟨"doc", "https://d.org/x", 1⟩,
        ⟨"doc", "ftp://other", 2⟩], "redirects.json"⟩ " doc /a/b" " doc " ["a", "b"]
      ⟨"doc", "https://d.org/x", 1⟩ (by decide) (by decide)).1.imp
      (fun _ h => ⟨h.1, h.2.1⟩)⟩

/-- C9.  A delLink request for `s` is one whose path after `/del/`, trimmed of
spaces, is `s`; a redirect request for `s` is one whose first path segment,
trimmed of spaces, is `s`.  For every registry with pairwise distinct shortnames
that contains an entry with shortname `s`: delLink for `s` returns, afterwards no
entry with shortname `s` remains, the registry is the old list without that entry
(the other entries with their fields, in their order), the one call of
`saveToDisk` is handed exactly that list, and every later redirect request for `s`
issues no redirect and renders only the not-found page. -/
theorem C9_delLink_removes (m : settings) (d : Disk) (rest s : String)
    (hnd : (m.redirects.map (fun e => e.Shortname)).Nodup)
    (hs : ∃ v ∈ m.redirects, v.Shortname = s)
    (hreq : Trim rest ' ' = s) :
    ∃ r, m.delLink d ("/del/" ++ rest) = some r ∧
      (∀ v ∈ r.m.redirects, v.Shortname ≠ s) ∧
      r.m.redirects = m.redirects.filter (fun e => decide (e.Shortname ≠ s)) ∧
      r.m.filename = m.filename ∧
      r.saved = [r.m.redirects] ∧
      ∀ rest2 seg0 segs, Split rest2 '/' = seg0 :: segs → Trim seg0 ' ' = s →
        r.m.redirect ("/" ++ rest2) =
          some { m := r.m, w := sendHtml ("Shortname " ++ s ++ " not found!"), saved := [] } := by
  obtain ⟨i, v, hv⟩ := firstMatch_of_mem s m.redirects hs
  have hcut := firstMatch_cut s m.redirects i v hv hnd
  have h := delLink_eq m d rest
  rw [hreq, hv] at h
  have hgone : ∀ e ∈ m.redirects.take i ++ m.redirects.drop (i + 1), e.Shortname ≠ s := by
    intro e he
    rw [hcut] at he
    simpa using (List.mem_filter.mp he).2
  refine ⟨_, h, hgone, hcut, rfl, rfl, ?_⟩
  intro rest2 seg0 segs hsplit hcand
  have h2 := redirect_eq
    { m with redirects := m.redirects.take i ++ m.redirects.drop (i + 1) } rest2 seg0 segs hsplit
  rw [hcand, (firstMatch_eq_none s _).mpr hgone] at h2
  exact h2

/-- C9, witness: `wiki` is deleted from a registry of three entries, by the
request `/del/ wiki `. -/
theorem C9_delLink_removes_witness :
    (List.map (fun e => e.Shortname)
      [(⟨"doc", "https://d.org", 3⟩ : redirect), ⟨"wiki", "http://example.com/Wiki", 7⟩,
        ⟨"go", "ftp://g", 0⟩]).Nodup ∧
    Trim " wiki " ' ' = "wiki" ∧
    ∃ r, settings.delLink
        ⟨[⟨"doc", "https://d.org", 3⟩, ⟨"wiki", "http://example.com/Wiki", 7⟩,
          ⟨"go", "ftp://g", 0⟩], "redirects.json"⟩ ⟨none, none⟩ ("/del/" ++ " wiki ") = some r ∧
      r.m.redirects = [⟨"doc", "https://d.org", 3⟩, ⟨"go", "ftp://g", 0⟩] ∧
      r.saved = [r.m.redirects] := by
  refine ⟨by decide, by decide, ?_⟩
  obtain ⟨r, h1, -, h3, -, h5, -⟩ :=
    C9_delLink_removes
      ⟨[⟨"doc", "https://d.org", 3⟩, ⟨"wiki", "http://example.com/Wiki", 7⟩,
        ⟨"go", "ftp://g", 0⟩], "redirects.json"⟩ ⟨none, none⟩ " wiki " "wiki"
      (by decide) (by decide) (by decide)
  refine ⟨r, h1, ?_, h5⟩
  rw [h3]
  decide

/-- C10.  A delLink request for `s` is one whose path after `/del/`, trimmed of
spaces, is `s`.  For every registry and every shortname `s` that no entry has,
delLink for `s` returns with the settings unchanged and without a call of
`saveToDisk`, and its only output is the redirect to `/list`. -/
theorem C10_delLink_absent (m : settings) (d : Disk) (rest s : String)
    (habs : ∀ v ∈ m.redirects, v.Shortname ≠ s)
    (hreq : Trim rest ' ' = s) :
    m.delLink d ("/del/" ++ rest) =
      some { m := m, w := [Output.Redirect "/list" 302], saved := [] } := by
  have h := delLink_eq m d rest
  rw [hreq, (firstMatch_eq_none s m.redirects).mpr habs] at h
  exact h

/-- C10, witness: `/del/wik` on a registry that holds `wiki`, with a disk that
would refuse the write. -/
theorem C10_delLink_absent_witness :
    (∀ v ∈ [(⟨"wiki", "http://example.com/Wiki", 0⟩ : redirect)], v.Shortname ≠ "wik") ∧
    Trim "wik" ' ' = "wik" ∧
    settings.delLink ⟨[⟨"wiki", "http://example.com/Wiki", 0⟩], "redirects.json"⟩
        ⟨none, some "disk full"⟩ ("/del/" ++ "wik") =
      some { m := ⟨[⟨"wiki", "http://example.com/Wiki", 0⟩], "redirects.json"⟩
             w := [Output.Redirect "/list" 302], saved := [] } :=
  ⟨by decide, by decide,
    C10_delLink_absent ⟨[⟨"wiki", "http://example.com/Wiki", 0⟩], "redirects.json"⟩
      ⟨none, some "disk full"⟩ "wik" "wik" (by decide) (by decide)⟩

/-- C11, the code at the failing input: the request `/100% n` (the URL
`/100%25%20n`) on the empty registry.  No entry matches the candidate shortname
`100% n`; the handler issues no redirect, leaves the settings as they are and saves
nothing, as the claim says; but `sendHtml` passes its text to `fmt.Fprintf` as the
format (line 164), so the page reads "Shortname 100%!n(MISSING) not found!" and
does not name the shortname.  In general the only output is the text
"Shortname ", the candidate shortname, " not found!", written as a format; it is
that text itself when the shortname holds no `%`. -/
theorem C11_not_found_page_is_a_format :
    Split "100% n" '/' = ["100% n"] ∧ Trim "100% n" ' ' = "100% n" ∧
    (newRedirector "redirects.json").redirect "/100% n" =
      some { m := newRedirector "redirects.json"
             w := [.Write "<html>\n                                <head>\n                                <title>Redirects Setup</title>\n                                </head>\n                                <body>",
                   .Write "Shortname 100%!n(MISSING) not found!",
                   .Write "</body>\n                                </html>"]
             saved := [] } ∧
    (∀ (m : settings) (rest seg0 : String) (segs : List String),
      Split rest '/' = seg0 :: segs →
      (∀ v ∈ m.redirects, v.Shortname ≠ Trim seg0 ' ') →
      m.redirect ("/" ++ rest) =
        some { m := m
               w := [.Write "<html>\n                                <head>\n                                <title>Redirects Setup</title>\n                                </head>\n                                <body>",
                     .Write (Sprintf ("Shortname " ++ Trim seg0 ' ' ++ " not found!")),
                     .Write "</body>\n                                </html>"]
               saved := [] } ∧
      ('%' ∉ (Trim seg0 ' ').data →
        Sprintf ("Shortname " ++ Trim seg0 ' ' ++ " not found!") =
          "Shortname " ++ Trim seg0 ' ' ++ " not found!")) := by
  refine ⟨by decide, by decide, ?_, ?_⟩
  · have h := redirect_eq (newRedirector "redirects.json") "100% n" "100% n" [] (by decide)
    have ht : Trim "100% n" ' ' = "100% n" := by decide
    have hf : firstMatch "100% n" (newRedirector "redirects.json").redirects = none := rfl
    have e : Sprintf ("Shortname " ++ "100% n" ++ " not found!") =
        "Shortname 100%!n(MISSING) not found!" := by decide
    rw [ht, hf] at h
    simp only [sendHtml_eq, e, List.nil_append] at h
    exact h
  · intro m rest seg0 segs hsplit habs
    have h := redirect_eq m rest seg0 segs hsplit
    rw [(firstMatch_eq_none _ m.redirects).mpr habs] at h
    simp only [sendHtml_eq, List.nil_append] at h
    refine ⟨h, fun hp => Sprintf_no_percent _ ?_⟩
    intro e
    simp only [String.data_append, List.mem_append] at e
    rcases e with (e | e) | e
    · revert e
      decide
    · exact hp e
    · revert e
      decide

/-- C14.  For every accepted add request with a shortname not yet in the registry,
if `saveToDisk` on the extended registry returns an error, then `addLink` returns,
the new entry is nevertheless in the registry (appended, `Requests = 0`), and the
only output is `http.Error` with "Internal error saving redirect." and status 500:
no redirect to the list view. -/
theorem C14_addLink_save_fails (m : settings) (d : Disk) (path p s : String)
    (ts : List String)
    (hacc : validReq.MatchString path = true)
    (hseg : Split path '/' = p :: s :: ts)
    (hnew : ∀ v ∈ m.redirects, v.Shortname ≠ s)
    (hfail : ∃ err, settings.saveToDisk
      { m with redirects := m.redirects ++
          [{ Shortname := s, Url := p ++ "://" ++ Join (ts.map (fun t => Trim t ' ')) "/"
             Requests := 0 }] } d = some err) :
    ∃ r, m.addLink d ("/add/" ++ path) = some r ∧
      r.m.redirects = m.redirects ++
        [{ Shortname := s, Url := p ++ "://" ++ Join (ts.map (fun t => Trim t ' ')) "/"
           Requests := 0 }] ∧
      r.w = [Output.Error "Internal error saving redirect." 500] ∧
      (∀ u c, Output.Redirect u c ∉ r.w) := by
  obtain ⟨err, herr⟩ := hfail
  have herr2 : settings.saveToDisk m d = some err := herr
  have h := addLink_accepted m d path p s ts hacc hseg
  rw [(firstMatch_eq_none s m.redirects).mpr hnew] at h
  simp only [herr2] at h
  refine ⟨_, h, rfl, rfl, ?_⟩
  intro u c
  simp

/-- C14, witness: `wiki` is added while the disk refuses the write. -/
theorem C14_addLink_save_fails_witness :
    validReq.MatchString "http/wiki/example.com/Wiki" = true ∧
    Split "http/wiki/example.com/Wiki" '/' = ["http", "wiki", "example.com", "Wiki"] ∧
    ∃ r, (newRedirector "redirects.json").addLink ⟨none, some "disk full"⟩
        ("/add/" ++ "http/wiki/example.com/Wiki") = some r ∧
      r.m.redirects = (newRedirector "redirects.json").redirects ++
        [{ Shortname := "wiki"
           Url := "http" ++ "://" ++ Join (["example.com", "Wiki"].map (fun t => Trim t ' ')) "/"
           Requests := 0 }] ∧
      r.w = [Output.Error "Internal error saving redirect." 500] :=
  ⟨by decide, by decide,
    (C14_addLink_save_fails (newRedirector "redirects.json") ⟨none, some "disk full"⟩
      "http/wiki/example.com/Wiki" "http" "wiki" ["example.com", "Wiki"]
      (by decide) (by decide) (by decide) ⟨_, rfl⟩).imp
      (fun _ h => ⟨h.1, h.2.1, h.2.2.1⟩)⟩

/-- C17, the code at the failing input `/wiki` on a registry that holds `wiki`.
An entry matches the candidate shortname, and after the redirect the handler still
writes the page "Shortname wiki not found!": the `break` of line 98 leaves the loop
and line 101 runs for every request.  In general the output of the handler ends
with the not-found page, whether or not an entry matches. -/
theorem C17_not_found_page_after_redirect :
    ((∃ v ∈ [(⟨"wiki", "http://example.com/Wiki", 0⟩ : redirect)],
        v.Shortname = Trim "wiki" ' ') ∧
      settings.redirect ⟨[⟨"wiki", "http://example.com/Wiki", 0⟩], "redirects.json"⟩ "/wiki" =
        some { m := ⟨[⟨"wiki", "http://example.com/Wiki", 0⟩], "redirects.json"⟩
               w := [Output.HeaderSet "Cache-Control" "private, no-cache",
                     Output.Redirect "http://example.com/Wiki" 302] ++
                    sendHtml "Shortname wiki not found!"
               saved := [] }) ∧
    (∀ (m : settings) (rest : String), ∃ r seg0 segs,
      Split rest '/' = seg0 :: segs ∧ m.redirect ("/" ++ rest) = some r ∧
      sendHtml ("Shortname " ++ Trim seg0 ' ' ++ " not found!") <:+ r.w) := by
  refine ⟨⟨by decide, ?_⟩, ?_⟩
  · have h := redirect_eq ⟨[⟨"wiki", "http://example.com/Wiki", 0⟩], "redirects.json"⟩
      "wiki" "wiki" [] (by decide)
    have hf : firstMatch (Trim "wiki" ' ') [(⟨"wiki", "http://example.com/Wiki", 0⟩ : redirect)]
        = some (0, ⟨"wiki", "http://example.com/Wiki", 0⟩) := by decide
    have e : "Shortname " ++ Trim "wiki" ' ' ++ " not found!" = "Shortname wiki not found!" := by
      decide
    rw [hf, e] at h
    exact h
  intro m rest
  cases hs : Split rest '/' with
  | nil => exact absurd hs (Split_ne_nil rest '/')
  | cons seg0 segs =>
    exact ⟨_, seg0, segs, rfl, redirect_eq m rest seg0 segs hs, List.suffix_append _ _⟩

/-- C19, counterexample.  The validator accepts `http/wiki/ `, whose target part is
one space; trimming, which comes after validation, leaves the empty target
remainder, and `addLink` stores the Url `http://`, which is not of the form
`p ++ "://" ++ r` with a non-empty `r`. -/
theorem C19_blank_target_stored :
    validReq.MatchString "http/wiki/ " = true ∧
    Join (((Split "http/wiki/ " '/').map (fun x => Trim x ' ')).drop 2) "/" = "" ∧
    (∃ r, (newRedirector "redirects.json").addLink ⟨none, none⟩ "/add/http/wiki/ " = some r ∧
      r.m.redirects = [⟨"wiki", "http://", 0⟩]) ∧
    ¬ ∃ p rem : String, (p = "http" ∨ p = "https" ∨ p = "ftp") ∧ rem ≠ "" ∧
        "http://" = p ++ "://" ++ rem := by
  refine ⟨by decide, by decide, ?_, ?_⟩
  · have h := addLink_accepted (newRedirector "redirects.json") ⟨none, none⟩ "http/wiki/ "
      "http" "wiki" [" "] (by decide) (by decide)
    have e : "http" ++ "://" ++ Join (List.map (fun x => Trim x ' ') [" "]) "/" = "http://" := by
      decide
    rw [e] at h
    exact ⟨_, h, rfl⟩
  · rintro ⟨p, rem, hp | hp | hp, hne, h⟩
    · subst hp
      have hd := congrArg String.data h
      rw [String.data_append] at hd
      have h1 : "http://".data = "http://".data ++ rem.data := hd
      exact hne (String.ext (List.self_eq_append_right.mp h1))
    · subst hp
      have hd := congrArg (fun x => x.data.length) h
      simp only [String.data_append, List.length_append, List.length_cons,
        List.length_nil] at hd
      omega
    · subst hp
      have hd := congrArg (fun x => x.data.head?) h
      simp only [String.data_append] at hd
      have h1 : some 'h' = some 'f' := hd
      exact absurd h1 (by decide)

/-- C19, amended.  Every entry created by `addLink` has a Url of the form
`p ++ "://" ++ r` where `p` is one of `http`, `https`, `ftp` and `r` is the stored
target remainder (the trimmed target segments joined by "/"); `r` is non-empty
whenever the target part of the path holds a character other than a space, that
is, when it has two or more segments or a segment with such a character. -/
theorem C19_url_form (m : settings) (d : Disk) (path p s : String) (ts : List String)
    (hacc : validReq.MatchString path = true)
    (hseg : Split path '/' = p :: s :: ts)
    (hnew : ∀ v ∈ m.redirects, v.Shortname ≠ s) :
    ∃ r rem, m.addLink d ("/add/" ++ path) = some r ∧
      rem = Join (ts.map (fun t => Trim t ' ')) "/" ∧
      r.m.redirects = m.redirects ++ [{ Shortname := s, Url := p ++ "://" ++ rem, Requests := 0 }] ∧
      (p = "http" ∨ p = "https" ∨ p = "ftp") ∧
      ((2 ≤ ts.length ∨ ∃ t ∈ ts, ∃ c ∈ t.data, c ≠ ' ') → rem ≠ "") := by
  have h := addLink_accepted m d path p s ts hacc hseg
  rw [(firstMatch_eq_none s m.redirects).mpr hnew] at h
  obtain ⟨p1, s1, t1, -, hp, -, -, -, -, hsplit, -, -⟩ := accepted_split path hacc
  rw [hseg] at hsplit
  simp only [List.cons.injEq] at hsplit
  obtain ⟨rfl, rfl, rfl⟩ := hsplit
  refine ⟨_, _, h, rfl, rfl, hp, ?_⟩
  intro hne
  apply Join_ne_empty _ _ _ (by decide)
  rcases Nat.lt_or_ge 1 (Split t1 '/').length with h2 | h2
  · left
    simpa using h2
  · right
    rcases hne with h3 | ⟨t, ht, hc⟩
    · omega
    · cases hl : Split t1 '/' with
      | nil => rw [hl] at ht; simp at ht
      | cons a rest =>
        cases rest with
        | nil =>
          rw [hl] at ht
          simp only [List.mem_singleton] at ht
          subst ht
          exact ⟨Trim t ' ', rfl, Trim_ne_empty t ' ' hc⟩
        | cons b rest2 =>
          rw [hl] at h2
          simp at h2

/-- C19, witness: the entry stored for `https/doc/d.org/x y`. -/
theorem C19_url_form_witness :
    validReq.MatchString "https/doc/d.org/x y" = true ∧
    Split "https/doc/d.org/x y" '/' = ["https", "doc", "d.org", "x y"] ∧
    ∃ r, (newRedirector "redirects.json").addLink ⟨none, none⟩
        ("/add/" ++ "https/doc/d.org/x y") = some r ∧
      r.m.redirects = (newRedirector "redirects.json").redirects ++
        [{ Shortname := "doc"
           Url := "https" ++ "://" ++ Join (["d.org", "x y"].map (fun t => Trim t ' ')) "/"
           Requests := 0 }] ∧
      Join (["d.org", "x y"].map (fun t => Trim t ' ')) "/" ≠ "" := by
  refine ⟨by decide, by decide, ?_⟩
  obtain ⟨r, rem, h1, h2, h3, -, h5⟩ :=
    C19_url_form (newRedirector "redirects.json") ⟨none, none⟩ "https/doc/d.org/x y"
      "https" "doc" ["d.org", "x y"] (by decide) (by decide) (by decide)
  subst h2
  exact ⟨r, h1, h3, h5 (Or.inl (by decide))⟩

/-- C20.  For every path the validator accepts, splitting on "/" yields at least
three segments; the first is exactly `http`, `https` or `ftp`, the second is
non-empty and holds no space, so trimming changes neither; the accesses `req[0]`,
`req[1]` and `req[2:]` of `addLink` are in range, and `addLink` returns (no
panic) for every registry and every disk. -/
theorem C20_accepted_in_range (path : String)
    (hacc : validReq.MatchString path = true) :
    (∃ p s t0 ts, Split path '/' = p :: s :: t0 :: ts ∧
      (p = "http" ∨ p = "https" ∨ p = "ftp") ∧ s ≠ "" ∧ ' ' ∉ s.data ∧
      Trim p ' ' = p ∧ Trim s ' ' = s ∧
      ((Split path '/').map (fun x => Trim x ' '))[0]? = some p ∧
      ((Split path '/').map (fun x => Trim x ' '))[1]? = some s ∧
      2 ≤ ((Split path '/').map (fun x => Trim x ' ')).length) ∧
    (∀ (m : settings) (d : Disk), ∃ r, m.addLink d ("/add/" ++ path) = some r) := by
  obtain ⟨p, s, t, -, hp, hs, -, hcls, -, hsplit, htp, hts⟩ := accepted_split path hacc
  have hsp : ' ' ∉ s.data := fun e => (shortnameClass_not_sep _ (hcls _ e)).2 rfl
  constructor
  · cases ht : Split t '/' with
    | nil => exact absurd ht (Split_ne_nil t '/')
    | cons t0 ts =>
      rw [ht] at hsplit
      refine ⟨p, s, t0, ts, hsplit, hp, hs, hsp, htp, hts, ?_, ?_, ?_⟩
      · simp [hsplit, htp]
      · simp [hsplit, hts]
      · simp [hsplit]
  · intro m d
    have h := addLink_accepted m d path p s (Split t '/') hacc hsplit
    cases hf : firstMatch s m.redirects with
    | none => rw [hf] at h; exact ⟨_, h⟩
    | some q => rw [hf] at h; exact ⟨_, h⟩

/-- C20, witness: the segments of `ftp/files/host.org/pub`. -/
theorem C20_accepted_in_range_witness :
    validReq.MatchString "ftp/files/host.org/pub" = true ∧
    ∃ p s t0 ts, Split "ftp/files/host.org/pub" '/' = p :: s :: t0 :: ts ∧
      (p = "http" ∨ p = "https" ∨ p = "ftp") ∧ s ≠ "" ∧ ' ' ∉ s.data :=
  ⟨by decide,
    (C20_accepted_in_range "ftp/files/host.org/pub" (by decide)).1.imp
      (fun _ h => h.imp (fun _ h => h.imp (fun _ h => h.imp
        (fun _ h => ⟨h.1, h.2.1, h.2.2.1, h.2.2.2.1⟩))))⟩

/-- C12.  Starting from the empty registry, after any finite sequence of accepted
add requests whose shortnames are pairwise distinct, whatever the disk answers at
each save: the registry holds exactly one entry per request, in request order,
each with that request's shortname, its target `p ++ "://" ++` trimmed segments
joined by "/", and `Requests = 0`; and the list view writes the head of the page,
then exactly one line "Shortname: s -> Url: target  Count 0 <BR>" per request, in
request order, then the foot of the page. -/
theorem C12_list_after_adds (file : String) (reqs : List AddRequest)
    (hacc : ∀ q ∈ reqs,
      validReq.MatchString q.path = true ∧ Split q.path '/' = q.p :: q.s :: q.ts)
    (hnd : (reqs.map (fun q => q.s)).Nodup) :
    (run (newRedirector file)
        (reqs.map (fun q => Request.add ("/add/" ++ q.path) q.d))).redirects =
      reqs.map (fun q =>
        { Shortname := q.s
          Url := q.p ++ "://" ++ Join (q.ts.map (fun t => Trim t ' ')) "/"
          Requests := 0 }) ∧
    (run (newRedirector file)
        (reqs.map (fun q => Request.add ("/add/" ++ q.path) q.d))).getLinks.w =
      [.Write "<html>\n                                <head>\n                                <title>Redirects Setup</title>\n                                </head>\n                                <body>",
       .Write (String.join (reqs.map (fun q =>
          "Shortname: " ++ q.s ++ " -> Url: " ++
            (q.p ++ "://" ++ Join (q.ts.map (fun t => Trim t ' ')) "/") ++
            "  Count " ++ "0" ++ " <BR>"))),
       .Write "</body>\n                                </html>"] := by
  have h := run_adds (newRedirector file) reqs hacc hnd (fun _ _ v hv => by simp [newRedirector] at hv)
  constructor
  · rw [h]
    simp [newRedirector, AddRequest.entry]
  · have hlines : reqs.map (fun q =>
          "Shortname: " ++ q.s ++ " -> Url: " ++
            (q.p ++ "://" ++ Join (q.ts.map (fun t => Trim t ' ')) "/") ++
            "  Count " ++ "0" ++ " <BR>") = reqs.map (fun q => listLine q.entry) :=
      List.map_congr_left (fun q _ => rfl)
    have hfree : '%' ∉ (String.join (reqs.map (fun q => listLine q.entry))).data := by
      intro e
      obtain ⟨a, ha, hc⟩ := join_mem _ _ e
      simp only [List.mem_map] at ha
      obtain ⟨q, hq, rfl⟩ := ha
      obtain ⟨h1, h2⟩ := accepted_no_percent q.path q.p q.s q.ts (hacc q hq).1 (hacc q hq).2
      have hz : toString (0 : Int) = "0" := rfl
      simp only [listLine, AddRequest.entry, hz, String.data_append, List.mem_append] at hc
      rcases hc with (((((hc | hc) | hc) | hc) | hc) | hc) | hc
      · revert hc
        decide
      · exact h1 hc
      · revert hc
        decide
      · exact h2 (by simpa only [String.data_append, List.mem_append] using hc)
      · revert hc
        decide
      · revert hc
        decide
      · revert hc
        decide
    rw [getLinks_eq, h, hlines]
    simp only [newRedirector, List.nil_append, List.map_map, sendHtml_eq]
    rw [show (listLine ∘ AddRequest.entry) = (fun q => listLine q.entry) from rfl,
      Sprintf_no_percent _ hfree]

/-- C12, witness: `wiki` and `doc` are added, the second while the disk refuses
the write. -/
theorem C12_list_after_adds_witness :
    (∀ q ∈ [(⟨"http/wiki/example.com/Wiki", "http", "wiki", ["example.com", "Wiki"],
              ⟨none, none⟩⟩ : AddRequest),
            ⟨"https/doc/ d.org", "https", "doc", [" d.org"], ⟨none, some "disk full"⟩⟩],
      validReq.MatchString q.path = true ∧ Split q.path '/' = q.p :: q.s :: q.ts) ∧
    (run (newRedirector "redirects.json")
        [Request.add ("/add/" ++ "http/wiki/example.com/Wiki") ⟨none, none⟩,
         Request.add ("/add/" ++ "https/doc/ d.org") ⟨none, some "disk full"⟩]).redirects =
      [{ Shortname := "wiki"
         Url := "http" ++ "://" ++ Join (["example.com", "Wiki"].map (fun t => Trim t ' ')) "/"
         Requests := 0 },
       { Shortname := "doc"
         Url := "https" ++ "://" ++ Join ([" d.org"].map (fun t => Trim t ' ')) "/"
         Requests := 0 }] :=
  ⟨by decide,
    (C12_list_after_adds "redirects.json"
      [⟨"http/wiki/example.com/Wiki", "http", "wiki", ["example.com", "Wiki"], ⟨none, none⟩⟩,
       ⟨"https/doc/ d.org", "https", "doc", [" d.org"], ⟨none, some "disk full"⟩⟩]
      (by decide) (by decide)).1⟩

/-- C13, counterexample.  The handlers take no lock.  Two add requests for `doc`
that reach the server together, under the schedule in which both goroutines
finish the lookup loop before either appends, lead from the empty registry to a
registry that holds `doc` twice: a reachable state whose shortnames are not
pairwise distinct. -/
theorem C13_duplicate_reached_by_two_goroutines :
    (interleave (newRedirector "redirects.json")
      (.start "/add/ftp/doc/files.org" ⟨none, none⟩)
      (.start "/add/http/doc/d.org" ⟨none, none⟩)
      [false, true, false, true]).1 =
      ⟨[⟨"doc", "ftp://files.org", 0⟩, ⟨"doc", "http://d.org", 0⟩], "redirects.json"⟩ ∧
    ¬ Unique (interleave (newRedirector "redirects.json")
      (.start "/add/ftp/doc/files.org" ⟨none, none⟩)
      (.start "/add/http/doc/d.org" ⟨none, none⟩)
      [false, true, false, true]).1 := by
  have h : (interleave (newRedirector "redirects.json")
      (.start "/add/ftp/doc/files.org" ⟨none, none⟩)
      (.start "/add/http/doc/d.org" ⟨none, none⟩)
      [false, true, false, true]).1 =
      ⟨[⟨"doc", "ftp://files.org", 0⟩, ⟨"doc", "http://d.org", 0⟩], "redirects.json"⟩ := by
    decide
  refine ⟨h, ?_⟩
  rw [h]
  exact fun hu => absurd hu.1 (by decide)

/-- C13, amended.  Uniqueness is an invariant of every single request and of
requests handled one after the other: if the shortnames of the registry are
pairwise distinct and non-empty, they are so after any `addLink`, `delLink`,
`redirect` or list request that returns, for every request path and every disk,
and after any sequence of requests handled one after the other; hence every state
reached from the empty registry by requests handled one after the other has
pairwise distinct, non-empty shortnames. -/
theorem C13_unique_invariant (m : settings) (q : Request) (hinv : Unique m) :
    (∀ r, handle m q = some r → Unique r.m) ∧
    (∀ qs, Unique (run m qs)) ∧
    (∀ (file : String) (qs : List Request), Unique (run (newRedirector file) qs)) :=
  ⟨fun r h => handle_unique m q r hinv h, fun qs => run_unique m qs hinv,
    fun file qs => run_unique (newRedirector file) qs
      ⟨by simp [newRedirector], fun v hv => by simp [newRedirector] at hv⟩⟩

/-- C13, witness: a second add of `wiki`, then a delete and a new add, on a
registry that holds `wiki` and `doc`. -/
theorem C13_unique_invariant_witness :
    Unique ⟨[⟨"wiki", "http://example.com/Wiki", 0⟩, ⟨"doc", "https://d.org", 2⟩],
      "redirects.json"⟩ ∧
    Unique (run ⟨[⟨"wiki", "http://example.com/Wiki", 0⟩, ⟨"doc", "https://d.org", 2⟩],
        "redirects.json"⟩
      [Request.add "/add/ftp/wiki/other.org" ⟨none, none⟩,
       Request.del "/del/doc" ⟨none, none⟩,
       Request.add "/add/ftp/doc/files.org" ⟨none, some "disk full"⟩,
       Request.redirect "/wiki"]) :=
  ⟨⟨by decide, by decide⟩,
    (C13_unique_invariant
      ⟨[⟨"wiki", "http://example.com/Wiki", 0⟩, ⟨"doc", "https://d.org", 2⟩], "redirects.json"⟩
      Request.list ⟨by decide, by decide⟩).2.1 _⟩

/-- C16, counterexample.  Two requests `/add/http/wiki/example.com` on the empty
registry, under the schedule in which both goroutines finish the lookup loop
before either appends: both find no entry `wiki`, both append, both answer with
the redirect to `/list`, and the registry holds the entry `wiki` twice. -/
theorem C16_both_adds_stored :
    validReq.MatchString "http/wiki/example.com" = true ∧
    interleave (newRedirector "redirects.json")
      (.start "/add/http/wiki/example.com" ⟨none, none⟩)
      (.start "/add/http/wiki/example.com" ⟨none, none⟩)
      [false, true, false, true] =
    (⟨[⟨"wiki", "http://example.com", 0⟩, ⟨"wiki", "http://example.com", 0⟩],
        "redirects.json"⟩,
      .done [Output.Redirect "/list" 302], .done [Output.Redirect "/list" 302]) := by
  decide

/-- C16, amended.  Two `addLink` requests for the same shortname `s`, not yet
registered, that are handled one after the other (the first goroutine runs to its
end before the second starts, in either order): the request handled first stores
its entry, and answers with the redirect to `/list` when the save succeeds; the
other gets the page "Shortname already points to " with the Url stored by the
first; exactly one entry with shortname `s` is stored. -/
theorem C16_adds_one_after_the_other (m : settings) (da db : Disk)
    (pa pb p1 p2 s : String) (ts1 ts2 : List String)
    (hacca : validReq.MatchString pa = true) (hsega : Split pa '/' = p1 :: s :: ts1)
    (haccb : validReq.MatchString pb = true) (hsegb : Split pb '/' = p2 :: s :: ts2)
    (hnew : ∀ v ∈ m.redirects, v.Shortname ≠ s) :
    (∃ wa, interleave m (.start ("/add/" ++ pa) da) (.start ("/add/" ++ pb) db)
        [false, false, true, true] =
      ({ m with redirects := m.redirects ++
          [⟨s, p1 ++ "://" ++ Join (ts1.map (fun x => Trim x ' ')) "/", 0⟩] },
        .done wa,
        .done (sendHtml ("Shortname already points to " ++
          (p1 ++ "://" ++ Join (ts1.map (fun x => Trim x ' ')) "/")))) ∧
      (m.saveToDisk da = none → wa = [Output.Redirect "/list" 302]) ∧
      ((m.redirects ++
          [(⟨s, p1 ++ "://" ++ Join (ts1.map (fun x => Trim x ' ')) "/", 0⟩ : redirect)]).filter
        (fun e => decide (e.Shortname = s))).length = 1) ∧
    (∃ wb, interleave m (.start ("/add/" ++ pa) da) (.start ("/add/" ++ pb) db)
        [true, true, false, false] =
      ({ m with redirects := m.redirects ++
          [⟨s, p2 ++ "://" ++ Join (ts2.map (fun x => Trim x ' ')) "/", 0⟩] },
        .done (sendHtml ("Shortname already points to " ++
          (p2 ++ "://" ++ Join (ts2.map (fun x => Trim x ' ')) "/"))),
        .done wb) ∧
      (m.saveToDisk db = none → wb = [Output.Redirect "/list" 302])) := by
  have hcount : ∀ e : redirect, e.Shortname = s →
      ((m.redirects ++ [e]).filter (fun e => decide (e.Shortname = s))).length = 1 := by
    intro e he
    have h0 : m.redirects.filter (fun e => decide (e.Shortname = s)) = [] :=
      List.filter_eq_nil_iff.mpr (fun v hv => by simpa using hnew v hv)
    simp [List.filter_append, h0, he]
  obtain ⟨ha1, hb2⟩ := adds_in_sequence m da db pa pb p1 p2 s ts1 ts2 hacca hsega haccb hsegb hnew
  obtain ⟨hb1, ha2⟩ := adds_in_sequence m db da pb pa p2 p1 s ts2 ts1 haccb hsegb hacca hsega hnew
  constructor
  · refine ⟨(m.addLinkStore da
      ⟨s, p1 ++ "://" ++ Join (ts1.map (fun x => Trim x ' ')) "/", 0⟩).w, ?_, ?_, hcount _ rfl⟩
    · simp only [interleave, ha1, step_checked, hb2, step_done]
    · intro hok
      have hok2 : settings.saveToDisk { m with redirects := m.redirects ++
          [⟨s, p1 ++ "://" ++ Join (ts1.map (fun x => Trim x ' ')) "/", 0⟩] } da = none := hok
      simp only [settings.addLinkStore, hok2]
  · refine ⟨(m.addLinkStore db
      ⟨s, p2 ++ "://" ++ Join (ts2.map (fun x => Trim x ' ')) "/", 0⟩).w, ?_, ?_⟩
    · simp only [interleave, hb1, step_checked, ha2, step_done]
    · intro hok
      have hok2 : settings.saveToDisk { m with redirects := m.redirects ++
          [⟨s, p2 ++ "://" ++ Join (ts2.map (fun x => Trim x ' ')) "/", 0⟩] } db = none := hok
      simp only [settings.addLinkStore, hok2]

/-- C16, witness: two adds of `wiki` with different targets, one after the other. -/
theorem C16_adds_one_after_the_other_witness :
    validReq.MatchString "http/wiki/example.com" = true ∧
    Split "http/wiki/example.com" '/' = ["http", "wiki", "example.com"] ∧
    validReq.MatchString "ftp/wiki/other.org" = true ∧
    Split "ftp/wiki/other.org" '/' = ["ftp", "wiki", "other.org"] ∧
    ∃ wa, interleave (newRedirector "redirects.json")
        (.start ("/add/" ++ "http/wiki/example.com") ⟨none, none⟩)
        (.start ("/add/" ++ "ftp/wiki/other.org") ⟨none, none⟩) [false, false, true, true] =
      ({ newRedirector "redirects.json" with
          redirects := (newRedirector "redirects.json").redirects ++
            [⟨"wiki", "http" ++ "://" ++ Join (["example.com"].map (fun x => Trim x ' ')) "/", 0⟩] },
        .done wa,
        .done (sendHtml ("Shortname already points to " ++
          ("http" ++ "://" ++ Join (["example.com"].map (fun x => Trim x ' ')) "/")))) ∧
      wa = [Output.Redirect "/list" 302] := by
  refine ⟨by decide, by decide, by decide, by decide, ?_⟩
  obtain ⟨wa, h1, h2, -⟩ :=
    (C16_adds_one_after_the_other (newRedirector "redirects.json") ⟨none, none⟩ ⟨none, none⟩
      "http/wiki/example.com" "ftp/wiki/other.org" "http" "ftp" "wiki" ["example.com"]
      ["other.org"] (by decide) (by decide) (by decide) (by decide) (by decide)).1
  exact ⟨wa, h1, h2 rfl⟩

/-- C15.  Persistence round trip: for every registry (Lean strings are valid
Unicode), the bytes `saveToDisk` writes, read back by `readConfig` into a fresh
redirector, give a slice of the same length, without nil pointers, whose entries
have, in the same order, the Shortname and Url of the entries written; with
counters in the range of `int32` the entries are equal in all fields and
`json.Unmarshal` reports no error.  The empty list is read back as the empty
list. -/
theorem C15_round_trip (m : settings) :
    (readConfig (some m.fileContent)).length = m.redirects.length ∧
    (readConfig (some m.fileContent)).map (Option.map (fun v => (v.Shortname, v.Url))) =
      m.redirects.map (fun v => some (v.Shortname, v.Url)) ∧
    ((∀ v ∈ m.redirects, -2147483648 ≤ v.Requests ∧ v.Requests ≤ 2147483647) →
      readConfig (some m.fileContent) = m.redirects.map some ∧
      (Unmarshal m.fileContent).2 = none) ∧
    readConfig (some (Marshal [])) = [] := by
  have h := Unmarshal_Marshal m.redirects
  refine ⟨?_, ?_, ?_, ?_⟩
  · simp [readConfig, settings.fileContent, h]
  · simp only [readConfig, settings.fileContent, h, List.map_map]
    apply List.map_congr_left
    intro v _
    rfl
  · intro hr
    have hb : ∀ v ∈ m.redirects, readBack v = v := by
      intro v hv
      simp only [readBack, if_pos (hr v hv)]
    have hany : m.redirects.any
        (fun v => decide (¬ (-2147483648 ≤ v.Requests ∧ v.Requests ≤ 2147483647))) = false := by
      rw [List.any_eq_false]
      intro v hv
      simpa using hr v hv
    constructor
    · simp only [readConfig, settings.fileContent, h]
      apply List.map_congr_left
      intro v hv
      rw [hb v hv]
    · simp only [settings.fileContent, h, hany]
      rfl
  · simp [readConfig, Unmarshal_Marshal]

/-- C18, counterexample.  The config file
`[{"Shortname":"a","Url":"b","Requests":"x"}]` is well-formed JSON with a string
where the counter should be: `json.Unmarshal` reports a type error, skips that
field and stores the rest, so that after `readConfig` the registry holds the entry
`{a, b, 0}` and is not empty. -/
theorem C18_type_error_keeps_entry :
    Unmarshal "[\x7b\"Shortname\":\"a\",\"Url\":\"b\",\"Requests\":\"x\"\x7d]" =
      ([some ⟨"a", "b", 0⟩], some .typeError) ∧
    readConfig (some "[\x7b\"Shortname\":\"a\",\"Url\":\"b\",\"Requests\":\"x\"\x7d]") =
      [some ⟨"a", "b", 0⟩] := by
  decide

/-- C18, amended.  For every existing config file for whose content
`json.Unmarshal` reports a syntax error, or whose content is a JSON value other
than an array, `readConfig` on a fresh redirector leaves the registry empty. -/
theorem C18_syntax_error_leaves_empty (blob : String)
    (herr : (Unmarshal blob).2 = some .syntaxError ∨
      ∃ t ts, lex blob = some (t :: ts) ∧ t ≠ Token.lbracket) :
    readConfig (some blob) = [] := by
  simp only [readConfig]
  unfold Unmarshal at herr ⊢
  cases hl : lex blob with
  | none => rfl
  | some toks =>
    rw [hl] at herr
    simp only at herr ⊢
    by_cases hw : wellFormed toks = true
    · rw [if_pos hw] at herr ⊢
      rcases herr with herr | ⟨t, ts, ht, hne⟩
      · simp only at herr
        split_ifs at herr
        all_goals exact absurd herr (by decide)
      · simp only [Option.some.injEq] at ht
        subst ht
        cases t with
        | lbracket => exact absurd rfl hne
        | litNull => cases ts <;> rfl
        | _ => rfl
    · rw [if_neg hw]

/-- C18, witness: the file `[1,]`, which is not valid JSON. -/
theorem C18_syntax_error_leaves_empty_witness :
    (Unmarshal "[1,]").2 = some .syntaxError ∧ readConfig (some "[1,]") = [] :=
  ⟨by decide, C18_syntax_error_leaves_empty "[1,]" (Or.inl (by decide))⟩

end Golinks
